import Mathlib

/-!
# Verification of pco chunk/page metadata serialization

A shallow embedding of `src/pco/src/chunk_metadata.rs` from the
quantile-compression repository, together with proofs about its
serialization round-trip, validation, and backpatch behaviour.

The bit-stream primitives (`crate::bit_reader::BitReader`,
`crate::bit_writer::BitWriter`), the format constants (`crate::constants`),
and a few small helpers (`Mode::n_latents`, `Mode::latent_delta_order`,
`DeltaMoments`, `bits_to_encode_offset_bits`) are not part of the given
source tree; they are modelled from the spec (sections 2, 4.4, 6 and the
constants table) as noted in each doc comment.

Streams are modelled as lists of booleans; every integer field of width `w`
is written as its `w` low bits, least-significant bit first.  The unsigned
representation type `U` is modelled as `Nat` together with an explicit bit
width parameter `UB` (`U::BITS`); all reads of a `U` take `UB` bits.
-/

namespace Pco

/-! ## Bit-level encoding primitives -/

/-- Value of a bit string, least-significant bit first. -/
def ofBits : List Bool → Nat
  | [] => 0
  | b :: bs => (if b then 1 else 0) + 2 * ofBits bs

/-- The `w` low bits of `x`, least-significant bit first. -/
def toBits : Nat → Nat → List Bool
  | _, 0 => []
  | x, w + 1 => decide (x % 2 = 1) :: toBits (x / 2) w

theorem length_toBits (x w : Nat) : (toBits x w).length = w := by
  induction w generalizing x with
  | zero => rfl
  | succ w ih => simp [toBits, ih]

theorem ofBits_toBits (x w : Nat) : ofBits (toBits x w) = x % 2 ^ w := by
  induction w generalizing x with
  | zero => simp [toBits, ofBits, Nat.mod_one]
  | succ w ih =>
    have hmod : x % 2 = 0 ∨ x % 2 = 1 := Nat.mod_two_eq_zero_or_one x
    have hpow : (2 : Nat) ^ (w + 1) = 2 * 2 ^ w := by ring
    rw [toBits, ofBits, ih, hpow, Nat.mod_mul]
    rcases hmod with h | h <;> simp [h]

/-- Errors surfaced by this layer, mirroring `crate::errors::PcoError`. -/
inductive PcoError where
  | corruption (msg : String)
  | compatibility (msg : String)
  | insufficientData (msg : String)
deriving DecidableEq

instance {ε α : Type} [DecidableEq ε] [DecidableEq α] : DecidableEq (Except ε α) :=
  fun a b =>
    match a, b with
    | .error e, .error e' =>
      if h : e = e' then .isTrue (by rw [h]) else .isFalse (by intro hc; cases hc; exact h rfl)
    | .ok x, .ok x' =>
      if h : x = x' then .isTrue (by rw [h]) else .isFalse (by intro hc; cases hc; exact h rfl)
    | .error _, .ok _ => .isFalse (by intro hc; cases hc)
    | .ok _, .error _ => .isFalse (by intro hc; cases hc)

/-- Model of `crate::bit_reader::BitReader`: a cursor over a bit stream
(`consumed` is the absolute bit position, needed for byte alignment; `rest`
the bits not yet read). -/
structure BitReader where
  consumed : Nat
  rest : List Bool
deriving DecidableEq

/-- Read a `w`-bit unsigned integer (models `read_uint`, `read_usize` and
`read_bitlen`, which differ only in the Rust return type). -/
def BitReader.readUint (w : Nat) (r : BitReader) : Except PcoError (Nat × BitReader) :=
  if w ≤ r.rest.length then
    .ok (ofBits (r.rest.take w), ⟨r.consumed + w, r.rest.drop w⟩)
  else
    .error (.insufficientData "ran out of data")

/-- Model of `BitReader::drain_empty_byte`: consume up to the next byte
boundary, signalling corruption if any consumed bit is set. -/
def BitReader.drainEmptyByte (msg : String) (r : BitReader) :
    Except PcoError (Unit × BitReader) :=
  let k := (8 - r.consumed % 8) % 8
  if k ≤ r.rest.length then
    if (r.rest.take k).all (fun b => !b) then
      .ok ((), ⟨r.consumed + k, r.rest.drop k⟩)
    else
      .error (.corruption msg)
  else
    .error (.insufficientData "ran out of data")

/-- Model of `BitWriter::finish_byte`: pad the written stream with zero bits
to the next byte boundary. -/
def finishByte (w : List Bool) : List Bool :=
  w ++ List.replicate ((8 - w.length % 8) % 8) false

/-- Model of `BitWriter::overwrite_usize`: replace the `width` bits starting
at absolute bit position `bitIdx` with the low bits of `x`. -/
def overwriteUint (w : List Bool) (bitIdx x width : Nat) : List Bool :=
  w.take bitIdx ++ toBits x width ++ w.drop (bitIdx + width)

/-! ## Format constants

Modelled from the spec: the `BITS_TO_ENCODE_*` constants and the
interleaving width `K = ANS_INTERLEAVING` are format constants of
`crate::constants` that the spec leaves as fixed configuration values
(section 9, open question); the concrete values below are one consistent
choice (3 bits for the delta order is fixed by the spec). -/

def BITS_TO_ENCODE_N_ENTRIES : Nat := 24
def BITS_TO_ENCODE_COMPRESSED_BODY_SIZE : Nat := 32
def BITS_TO_ENCODE_MODE : Nat := 4
def BITS_TO_ENCODE_DELTA_ENCODING_ORDER : Nat := 3
def BITS_TO_ENCODE_ANS_SIZE_LOG : Nat := 4
def BITS_TO_ENCODE_N_BINS : Nat := 15
def ANS_INTERLEAVING : Nat := 4

/-- Floor of log base 2, with explicit structural fuel (so that it reduces
inside the kernel); `log2Fuel fuel n = Nat.log2 n` whenever `n ≤ fuel`. -/
def log2Fuel : Nat → Nat → Nat
  | 0, _ => 0
  | fuel + 1, n => if 2 ≤ n then log2Fuel fuel (n / 2) + 1 else 0

/-- Modelled from the spec: `crate::bits::bits_to_encode_offset_bits`, the
width just sufficient to express every value in `0..=U::BITS`
(`ceil(log2(U.BITS+1))`, section 6): one more than the floor log2 of
`U::BITS`. -/
def bits_to_encode_offset_bits (UB : Nat) : Nat := log2Fuel UB UB + 1

theorem lt_two_pow_log2Fuel : ∀ (fuel n : Nat), n ≤ fuel →
    n < 2 ^ (log2Fuel fuel n + 1)
  | 0, n, h => by
    have hn : n = 0 := Nat.le_zero.mp h
    subst hn
    decide
  | fuel + 1, n, h => by
    rw [log2Fuel]
    by_cases h2 : 2 ≤ n
    · rw [if_pos h2]
      have hdiv : n / 2 ≤ fuel := by omega
      have ih := lt_two_pow_log2Fuel fuel (n / 2) hdiv
      have hpow : (2:Nat) ^ (log2Fuel fuel (n / 2) + 1 + 1) =
          2 * 2 ^ (log2Fuel fuel (n / 2) + 1) := by ring
      rw [hpow]
      omega
    · rw [if_neg h2]
      have h1 : (2:Nat) ^ (0 + 1) = 2 := by norm_num
      omega

/-! ## Data model -/

/-- Modelled from the spec (and the match arms of the source): `crate::modes::Mode`.
`FloatMult` stores the float multiplier `base` by its bit reinterpretation
in `U` (the source's `from_unsigned`/`to_unsigned` bijection is elided:
`base` here *is* the `U` value read from / written to the stream; the
derived `inv_base` is not serialized). -/
inductive Mode where
  | Classic
  | Gcd
  | FloatMult (base : Nat)
deriving DecidableEq

/-- Modelled from the spec: `Mode::n_latents` — `Classic`→1, `Gcd`→1,
`FloatMult`→2 (section 4.4). -/
def Mode.n_latents : Mode → Nat
  | .Classic => 1
  | .Gcd => 1
  | .FloatMult _ => 2

/-- Modelled from the spec: `Mode::latent_delta_order` — latent 0 carries
the full chunk-level delta order, auxiliary latents carry zero
(section 4.4 (d)). -/
def Mode.latent_delta_order (_m : Mode) (latent_idx : Nat)
    (delta_encoding_order : Nat) : Nat :=
  if latent_idx = 0 then delta_encoding_order else 0

/-- `crate::bin::Bin`: one quantization bucket.  All `U`-typed fields are
`Nat` values below `2 ^ UB`. -/
structure Bin where
  weight : Nat
  lower : Nat
  offset_bits : Nat
  gcd : Nat
deriving DecidableEq

/-- `ChunkLatentMetadata`. -/
structure ChunkLatentMetadata where
  ans_size_log : Nat
  bins : List Bin
deriving DecidableEq

/-- `crate::Flags`, reduced to the single field this file reads. -/
structure Flags where
  use_wrapped_mode : Bool
deriving DecidableEq

/-- `ChunkMetadata`. -/
structure ChunkMetadata where
  n : Nat
  compressed_body_size : Nat
  mode : Mode
  delta_encoding_order : Nat
  latents : List ChunkLatentMetadata
deriving DecidableEq

/-! ## Bucket table codec (`parse_bins` / `write_bins`) -/

/-- The per-bin loop body of `parse_bins`, iterated `count` times. -/
def parseBinsLoop (UB : Nat) (mode : Mode) (ans_size_log : Nat) :
    Nat → BitReader → Except PcoError (List Bin × BitReader)
  | 0, r => .ok ([], r)
  | count + 1, r =>
    match r.readUint ans_size_log with
    | .error e => .error e
    | .ok (w0, r) =>
      let weight := w0 + 1
      match r.readUint UB with
      | .error e => .error e
      | .ok (lower, r) =>
        match r.readUint (bits_to_encode_offset_bits UB) with
        | .error e => .error e
        | .ok (offset_bits, r) =>
          if UB < offset_bits then
            .error (.corruption "offset bits exceeds data type bits")
          else
            match (match mode with
                   | .Gcd => if offset_bits ≠ 0 then r.readUint UB else .ok (1, r)
                   | _ => .ok (1, r)) with
            | .error e => .error e
            | .ok (gcd, r) =>
              match parseBinsLoop UB mode ans_size_log count r with
              | .error e => .error e
              | .ok (bins, r) =>
                .ok ({ weight := weight, lower := lower,
                       offset_bits := offset_bits, gcd := gcd } :: bins, r)

/-- `parse_bins`. -/
def parse_bins (UB : Nat) (mode : Mode) (ans_size_log : Nat) (r : BitReader) :
    Except PcoError (List Bin × BitReader) :=
  match r.readUint BITS_TO_ENCODE_N_BINS with
  | .error e => .error e
  | .ok (n_bins, r) =>
    if 2 ^ ans_size_log < n_bins then
      .error (.corruption "ANS size log is too small for number of bins")
    else if n_bins = 1 ∧ 0 < ans_size_log then
      .error (.corruption "Only 1 bin but ANS size log should be 0")
    else
      parseBinsLoop UB mode ans_size_log n_bins r

/-- The bits `write_bins` emits for one bin (the body of its `for` loop). -/
def binEnc (UB : Nat) (mode : Mode) (ans_size_log : Nat) (b : Bin) : List Bool :=
  toBits (b.weight - 1) ans_size_log ++
  toBits b.lower UB ++
  toBits b.offset_bits (bits_to_encode_offset_bits UB) ++
  (match mode with
   | .Classic => []
   | .Gcd => if 0 < b.offset_bits then toBits b.gcd UB else []
   | .FloatMult _ => [])

/-- `write_bins` (the bits appended to the writer). -/
def write_bins (UB : Nat) (mode : Mode) (ans_size_log : Nat) (bins : List Bin) :
    List Bool :=
  toBits bins.length BITS_TO_ENCODE_N_BINS ++
  (bins.map (binEnc UB mode ans_size_log)).flatten

/-! ## Latent chunk metadata -/

/-- `ChunkLatentMetadata::parse_from`. -/
def ChunkLatentMetadata.parse_from (UB : Nat) (r : BitReader) (mode : Mode) :
    Except PcoError (ChunkLatentMetadata × BitReader) :=
  match r.readUint BITS_TO_ENCODE_ANS_SIZE_LOG with
  | .error e => .error e
  | .ok (ans_size_log, r) =>
    match parse_bins UB mode ans_size_log r with
    | .error e => .error e
    | .ok (bins, r) => .ok ({ ans_size_log := ans_size_log, bins := bins }, r)

/-- `ChunkLatentMetadata::write_to` (the bits appended to the writer). -/
def ChunkLatentMetadata.write_to (UB : Nat) (l : ChunkLatentMetadata)
    (mode : Mode) : List Bool :=
  toBits l.ans_size_log BITS_TO_ENCODE_ANS_SIZE_LOG ++
  write_bins UB mode l.ans_size_log l.bins

/-! ## Chunk metadata -/

/-- The per-latent loop of `ChunkMetadata::parse_from`. -/
def parseLatentsLoop (UB : Nat) (mode : Mode) :
    Nat → BitReader → Except PcoError (List ChunkLatentMetadata × BitReader)
  | 0, r => .ok ([], r)
  | count + 1, r =>
    match ChunkLatentMetadata.parse_from UB r mode with
    | .error e => .error e
    | .ok (l, r) =>
      match parseLatentsLoop UB mode count r with
      | .error e => .error e
      | .ok (ls, r) => .ok (l :: ls, r)

/-- `ChunkMetadata::parse_from`. -/
def ChunkMetadata.parse_from (UB : Nat) (r : BitReader) (flags : Flags) :
    Except PcoError (ChunkMetadata × BitReader) :=
  match (match flags.use_wrapped_mode with
         | true => .ok ((0, 0), r)
         | false =>
           match r.readUint BITS_TO_ENCODE_N_ENTRIES with
           | .error e => .error e
           | .ok (n, r) =>
             match r.readUint BITS_TO_ENCODE_COMPRESSED_BODY_SIZE with
             | .error e => .error e
             | .ok (cbs, r) => .ok ((n, cbs), r) :
           Except PcoError ((Nat × Nat) × BitReader)) with
  | .error e => .error e
  | .ok ((n, compressed_body_size), r) =>
    match r.readUint BITS_TO_ENCODE_MODE with
    | .error e => .error e
    | .ok (tag, r) =>
      match (if tag = 0 then .ok (Mode.Classic, r)
             else if tag = 1 then .ok (Mode.Gcd, r)
             else if tag = 2 then
               (match r.readUint UB with
                | .error e => .error e
                | .ok (base, r) => .ok (Mode.FloatMult base, r))
             else .error (.compatibility "unknown mode value") :
             Except PcoError (Mode × BitReader)) with
      | .error e => .error e
      | .ok (mode, r) =>
        match r.readUint BITS_TO_ENCODE_DELTA_ENCODING_ORDER with
        | .error e => .error e
        | .ok (delta_encoding_order, r) =>
          match parseLatentsLoop UB mode mode.n_latents r with
          | .error e => .error e
          | .ok (latents, r) =>
            match r.drainEmptyByte
                "nonzero bits in end of final byte of chunk metadata" with
            | .error e => .error e
            | .ok (_, r) =>
              .ok ({ n := n, compressed_body_size := compressed_body_size,
                     mode := mode, delta_encoding_order := delta_encoding_order,
                     latents := latents }, r)

/-- The bits `ChunkMetadata::write_to` emits before its final `finish_byte`. -/
def ChunkMetadata.writeToBody (UB : Nat) (m : ChunkMetadata) (flags : Flags) :
    List Bool :=
  (match flags.use_wrapped_mode with
   | true => []
   | false =>
     toBits m.n BITS_TO_ENCODE_N_ENTRIES ++
     toBits m.compressed_body_size BITS_TO_ENCODE_COMPRESSED_BODY_SIZE) ++
  toBits (match m.mode with
          | .Classic => 0
          | .Gcd => 1
          | .FloatMult _ => 2) BITS_TO_ENCODE_MODE ++
  (match m.mode with
   | .FloatMult base => toBits base UB
   | _ => []) ++
  toBits m.delta_encoding_order BITS_TO_ENCODE_DELTA_ENCODING_ORDER ++
  (m.latents.map (fun l => ChunkLatentMetadata.write_to UB l m.mode)).flatten

/-- `ChunkMetadata::write_to`, appending to the writer `writer` and ending
with `finish_byte`. -/
def ChunkMetadata.write_to (UB : Nat) (m : ChunkMetadata) (flags : Flags)
    (writer : List Bool) : List Bool :=
  finishByte (writer ++ m.writeToBody UB flags)

/-- `ChunkMetadata::new`. -/
def ChunkMetadata.new (n : Nat) (mode : Mode) (delta_encoding_order : Nat)
    (latents : List ChunkLatentMetadata) : ChunkMetadata :=
  { n := n, compressed_body_size := 0, mode := mode,
    delta_encoding_order := delta_encoding_order, latents := latents }

/-- `ChunkMetadata::update_write_compressed_body_size`. -/
def ChunkMetadata.update_write_compressed_body_size (m : ChunkMetadata)
    (writer : List Bool) (bit_idx : Nat) : List Bool :=
  overwriteUint writer (bit_idx + BITS_TO_ENCODE_N_ENTRIES + 8)
    m.compressed_body_size BITS_TO_ENCODE_COMPRESSED_BODY_SIZE

/-- `ChunkMetadata::nontrivial_gcd_and_n_latents`.  The two queries it
delegates to (`bin::bins_are_trivial`, `gcd::use_gcd_arithmetic`) live in
modules outside the given source tree, so they are taken as parameters;
the source indexes `latents[0]` / `latents[1]` directly (a panic when
absent), modelled with a default of the empty table. -/
def ChunkMetadata.nontrivial_gcd_and_n_latents
    (bins_are_trivial use_gcd_arithmetic : List Bin → Bool)
    (m : ChunkMetadata) : Bool × Nat :=
  let primary_bins := (m.latents.getD 0 { ans_size_log := 0, bins := [] }).bins
  match m.mode with
  | .Classic | .Gcd =>
    if bins_are_trivial primary_bins then
      (false, 0)
    else
      let needs_gcd := use_gcd_arithmetic primary_bins
      (needs_gcd, 1)
  | .FloatMult _ =>
    let n_latents :=
      if bins_are_trivial (m.latents.getD 1 { ans_size_log := 0, bins := [] }).bins then
        if bins_are_trivial primary_bins then 0 else 1
      else 2
    (false, n_latents)

/-- `ChunkMetadata::latent_delta_order`. -/
def ChunkMetadata.latent_delta_order (m : ChunkMetadata) (latent_idx : Nat) :
    Nat :=
  m.mode.latent_delta_order latent_idx m.delta_encoding_order

/-! ## Reader/writer toolbox lemmas -/

theorem take_append_len {α : Type} (l1 l2 : List α) (n : Nat)
    (h : l1.length = n) : (l1 ++ l2).take n = l1 := by
  subst h; exact List.take_left _ _

theorem drop_append_len {α : Type} (l1 l2 : List α) (n : Nat)
    (h : l1.length = n) : (l1 ++ l2).drop n = l2 := by
  subst h; exact List.drop_left _ _

theorem readUint_toBits (x w c : Nat) (rest : List Bool) (hx : x < 2 ^ w) :
    BitReader.readUint w ⟨c, toBits x w ++ rest⟩ = .ok (x, ⟨c + w, rest⟩) := by
  have hlen : (toBits x w).length = w := length_toBits x w
  have ht : (toBits x w ++ rest).take w = toBits x w := take_append_len _ _ _ hlen
  have hd : (toBits x w ++ rest).drop w = rest := drop_append_len _ _ _ hlen
  rw [BitReader.readUint]
  rw [if_pos (by simp [hlen])]
  simp [ht, hd, ofBits_toBits, Nat.mod_eq_of_lt hx]

theorem drainEmptyByte_ok (msg : String) (c k : Nat) (rest : List Bool)
    (hk : k = (8 - c % 8) % 8) :
    BitReader.drainEmptyByte msg ⟨c, List.replicate k false ++ rest⟩ =
      .ok ((), ⟨c + k, rest⟩) := by
  have hlen : (List.replicate k false : List Bool).length = k := List.length_replicate k false
  have ht : ((List.replicate k false : List Bool) ++ rest).take k = List.replicate k false :=
    take_append_len _ _ _ hlen
  have hd : ((List.replicate k false : List Bool) ++ rest).drop k = rest :=
    drop_append_len _ _ _ hlen
  rw [BitReader.drainEmptyByte]
  simp only [← hk]
  rw [if_pos (by simp [hlen]), ht]
  rw [if_pos (by simp)]
  rw [hd]

theorem drainEmptyByte_corrupt (msg : String) (c : Nat) (p rest : List Bool)
    (hp : p.length = (8 - c % 8) % 8) (hnz : p.any id = true) :
    BitReader.drainEmptyByte msg ⟨c, p ++ rest⟩ = .error (.corruption msg) := by
  have ht : (p ++ rest).take ((8 - c % 8) % 8) = p := by
    conv_lhs => rw [← hp]
    exact List.take_left _ _
  have hfalse : (p.all fun b => !b) = false := by
    rcases List.any_eq_true.mp hnz with ⟨b, hb, hbt⟩
    simp only [id] at hbt
    subst hbt
    exact List.all_eq_false.mpr ⟨true, hb, by simp⟩
  rw [BitReader.drainEmptyByte]
  simp only []
  rw [if_pos (by simp [← hp]), ht, hfalse]
  simp

theorem length_finishByte_mod (w : List Bool) : (finishByte w).length % 8 = 0 := by
  simp only [finishByte, List.length_append, List.length_replicate]
  omega

theorem finishByte_append (w b : List Bool) (hw : w.length % 8 = 0) :
    finishByte (w ++ b) = w ++ finishByte b := by
  have h8 : (w.length + b.length) % 8 = b.length % 8 := by omega
  simp [finishByte, List.length_append, h8, List.append_assoc]

theorem UB_lt_pow_offset_bits (UB : Nat) :
    UB < 2 ^ bits_to_encode_offset_bits UB :=
  lt_two_pow_log2Fuel UB UB (Nat.le_refl UB)

/-! ## Validity predicates

These record exactly the invariants of spec section 3 needed for a written
bucket table / chunk to parse back: each field fits its field width and the
table-level constraints that `parse_bins` checks on read. -/

/-- `true` exactly when `write_bins` emits a `gcd` field for this bin:
the mode is `Gcd` and the bin's `offset_bits` is positive. -/
def writesGcd (mode : Mode) (b : Bin) : Bool :=
  match mode with
  | .Gcd => decide (0 < b.offset_bits)
  | _ => false

/-- A bin whose fields fit their encoded widths (spec section 3: weight
positive and counted in a `2 ^ ans_size_log`-state table, `offset_bits` in
`[0, U.BITS]`, `gcd` logically 1 unless the mode carries it). -/
def validBin (UB : Nat) (mode : Mode) (asl : Nat) (b : Bin) : Prop :=
  1 ≤ b.weight ∧ b.weight ≤ 2 ^ asl ∧ b.lower < 2 ^ UB ∧ b.offset_bits ≤ UB ∧
  (writesGcd mode b = true → b.gcd < 2 ^ UB) ∧
  (writesGcd mode b = false → b.gcd = 1)

instance (UB : Nat) (mode : Mode) (asl : Nat) (b : Bin) :
    Decidable (validBin UB mode asl b) := by
  unfold validBin; infer_instance

/-- A latent whose table satisfies the read-side checks of `parse_bins` and
whose fields fit their widths. -/
def validLatent (UB : Nat) (mode : Mode) (l : ChunkLatentMetadata) : Prop :=
  l.ans_size_log < 2 ^ BITS_TO_ENCODE_ANS_SIZE_LOG ∧
  l.bins ≠ [] ∧
  l.bins.length < 2 ^ BITS_TO_ENCODE_N_BINS ∧
  l.bins.length ≤ 2 ^ l.ans_size_log ∧
  (l.bins.length = 1 → l.ans_size_log = 0) ∧
  ∀ b ∈ l.bins, validBin UB mode l.ans_size_log b

instance (UB : Nat) (mode : Mode) (l : ChunkLatentMetadata) :
    Decidable (validLatent UB mode l) := by
  unfold validLatent; infer_instance

/-- The `FloatMult` base, if any, fits its full-width `U` field. -/
def floatMultBaseOk (UB : Nat) (mo : Mode) : Prop :=
  ∀ base, mo = Mode.FloatMult base → base < 2 ^ UB

instance (UB : Nat) : (mo : Mode) → Decidable (floatMultBaseOk UB mo)
  | .Classic => .isTrue (by intro b hb; cases hb)
  | .Gcd => .isTrue (by intro b hb; cases hb)
  | .FloatMult base =>
    decidable_of_iff (base < 2 ^ UB) (by
      constructor
      · intro h b hb
        cases hb
        exact h
      · intro h
        exact h base rfl)

/-- A chunk metadata value that serializes losslessly: delta order in its
3-bit field, one latent per latent required by the mode, a `FloatMult` base
fitting `U`, and valid latents. -/
def validMeta (UB : Nat) (m : ChunkMetadata) : Prop :=
  m.delta_encoding_order < 2 ^ BITS_TO_ENCODE_DELTA_ENCODING_ORDER ∧
  m.latents.length = m.mode.n_latents ∧
  floatMultBaseOk UB m.mode ∧
  ∀ l ∈ m.latents, validLatent UB m.mode l

instance (UB : Nat) (m : ChunkMetadata) : Decidable (validMeta UB m) := by
  unfold validMeta; infer_instance

/-! ## Bucket table codec lemmas -/

theorem length_binEnc (UB : Nat) (mode : Mode) (asl : Nat) (b : Bin) :
    (binEnc UB mode asl b).length =
      asl + UB + bits_to_encode_offset_bits UB +
        (if writesGcd mode b then UB else 0) := by
  cases mode with
  | Classic => simp [binEnc, writesGcd, length_toBits]; omega
  | FloatMult base => simp [binEnc, writesGcd, length_toBits]; omega
  | Gcd =>
    by_cases h : 0 < b.offset_bits <;>
      · simp [binEnc, writesGcd, length_toBits, h]; omega

/-- One iteration of the `parse_bins` loop applied to the bits `write_bins`
emits for one bin: the bin is recovered, with `gcd` forced to 1 exactly
when the stream carries no `gcd` field. -/
theorem parseBinsLoop_cons (UB : Nat) (mode : Mode) (asl k c : Nat) (b : Bin)
    (s : List Bool)
    (hw1 : 1 ≤ b.weight) (hw2 : b.weight ≤ 2 ^ asl)
    (hlow : b.lower < 2 ^ UB) (hob : b.offset_bits ≤ UB)
    (hgcd : writesGcd mode b = true → b.gcd < 2 ^ UB) :
    parseBinsLoop UB mode asl (k + 1) ⟨c, binEnc UB mode asl b ++ s⟩ =
      match parseBinsLoop UB mode asl k
          ⟨c + (binEnc UB mode asl b).length, s⟩ with
      | .error e => .error e
      | .ok (bins, r) =>
        .ok ({ weight := b.weight, lower := b.lower,
               offset_bits := b.offset_bits,
               gcd := if writesGcd mode b then b.gcd else 1 } :: bins, r) := by
  have ht : 1 ≤ 2 ^ asl := Nat.one_le_two_pow
  have hwlt : b.weight - 1 < 2 ^ asl := by omega
  have hbw : b.weight - 1 + 1 = b.weight := by omega
  have hoblt : b.offset_bits < 2 ^ bits_to_encode_offset_bits UB :=
    lt_of_le_of_lt hob (UB_lt_pow_offset_bits UB)
  have hnlt : ¬ UB < b.offset_bits := Nat.not_lt.mpr hob
  cases mode with
  | Classic =>
    have hlenc : (binEnc UB Mode.Classic asl b).length =
        asl + UB + bits_to_encode_offset_bits UB := by
      simp [length_binEnc, writesGcd]
    rw [parseBinsLoop, hlenc]
    have hstream : binEnc UB Mode.Classic asl b ++ s =
        toBits (b.weight - 1) asl ++
          (toBits b.lower UB ++
            (toBits b.offset_bits (bits_to_encode_offset_bits UB) ++ s)) := by
      simp [binEnc, List.append_assoc]
    rw [hstream]
    rw [readUint_toBits _ _ _ _ hwlt]
    simp only []
    rw [readUint_toBits _ _ _ _ hlow]
    simp only []
    rw [readUint_toBits _ _ _ _ hoblt]
    simp only [hnlt, if_false, writesGcd, Bool.false_eq_true, hbw]
    rw [show c + asl + UB + bits_to_encode_offset_bits UB
          = c + (asl + UB + bits_to_encode_offset_bits UB) by omega]
  | FloatMult base =>
    have hlenc : (binEnc UB (Mode.FloatMult base) asl b).length =
        asl + UB + bits_to_encode_offset_bits UB := by
      simp [length_binEnc, writesGcd]
    rw [parseBinsLoop, hlenc]
    have hstream : binEnc UB (Mode.FloatMult base) asl b ++ s =
        toBits (b.weight - 1) asl ++
          (toBits b.lower UB ++
            (toBits b.offset_bits (bits_to_encode_offset_bits UB) ++ s)) := by
      simp [binEnc, List.append_assoc]
    rw [hstream]
    rw [readUint_toBits _ _ _ _ hwlt]
    simp only []
    rw [readUint_toBits _ _ _ _ hlow]
    simp only []
    rw [readUint_toBits _ _ _ _ hoblt]
    simp only [hnlt, if_false, writesGcd, Bool.false_eq_true, hbw]
    rw [show c + asl + UB + bits_to_encode_offset_bits UB
          = c + (asl + UB + bits_to_encode_offset_bits UB) by omega]
  | Gcd =>
    rcases Nat.eq_zero_or_pos b.offset_bits with hzero | hpos
    · have hwg : writesGcd Mode.Gcd b = false := by simp [writesGcd, hzero]
      have hlenc : (binEnc UB Mode.Gcd asl b).length =
          asl + UB + bits_to_encode_offset_bits UB := by
        simp [length_binEnc, hwg]
      rw [parseBinsLoop, hlenc]
      have hstream : binEnc UB Mode.Gcd asl b ++ s =
          toBits (b.weight - 1) asl ++
            (toBits b.lower UB ++
              (toBits b.offset_bits (bits_to_encode_offset_bits UB) ++ s)) := by
        simp [binEnc, List.append_assoc, hzero]
      rw [hstream]
      rw [readUint_toBits _ _ _ _ hwlt]
      try simp only []
      rw [readUint_toBits _ _ _ _ hlow]
      try simp only []
      rw [readUint_toBits _ _ _ _ hoblt]
      simp only [hnlt, if_false, hwg, Bool.false_eq_true, hbw, hzero,
        ne_eq, not_true_eq_false, ite_false, not_false_eq_true, ite_true]
      rw [show c + asl + UB + bits_to_encode_offset_bits UB
            = c + (asl + UB + bits_to_encode_offset_bits UB) by omega]
      rw [if_neg (Nat.not_lt_zero UB)]
    · have hwg : writesGcd Mode.Gcd b = true := by simp [writesGcd, hpos]
      have hglt : b.gcd < 2 ^ UB := hgcd hwg
      have hlenc : (binEnc UB Mode.Gcd asl b).length =
          asl + UB + bits_to_encode_offset_bits UB + UB := by
        simp [length_binEnc, hwg]
      rw [parseBinsLoop, hlenc]
      have hstream : binEnc UB Mode.Gcd asl b ++ s =
          toBits (b.weight - 1) asl ++
            (toBits b.lower UB ++
              (toBits b.offset_bits (bits_to_encode_offset_bits UB) ++
                (toBits b.gcd UB ++ s))) := by
        simp [binEnc, List.append_assoc, hpos]
      rw [hstream]
      rw [readUint_toBits _ _ _ _ hwlt]
      try simp only []
      rw [readUint_toBits _ _ _ _ hlow]
      try simp only []
      rw [readUint_toBits _ _ _ _ hoblt]
      have hne : b.offset_bits ≠ 0 := Nat.pos_iff_ne_zero.mp hpos
      simp only [hnlt, if_false, hne, ne_eq, not_false_eq_true, ite_true]
      rw [readUint_toBits _ _ _ _ hglt]
      simp only [hwg, ite_true, hbw]
      rw [show c + asl + UB + bits_to_encode_offset_bits UB + UB
            = c + (asl + UB + bits_to_encode_offset_bits UB + UB) by omega]

/-- The `parse_bins` loop inverts the bin list `write_bins` emits. -/
theorem parseBinsLoop_roundtrip (UB : Nat) (mode : Mode) (asl : Nat) :
    ∀ (bins : List Bin) (c : Nat) (s : List Bool),
      (∀ b ∈ bins, validBin UB mode asl b) →
      parseBinsLoop UB mode asl bins.length
          ⟨c, (bins.map (binEnc UB mode asl)).flatten ++ s⟩ =
        .ok (bins, ⟨c + ((bins.map (binEnc UB mode asl)).flatten).length, s⟩)
  | [], c, s, _ => by simp [parseBinsLoop]
  | b :: bs, c, s, hv => by
    obtain ⟨h1, h2, h3, h4, h5, h6⟩ := hv b (by simp)
    have hstream : ((b :: bs).map (binEnc UB mode asl)).flatten ++ s =
        binEnc UB mode asl b ++ ((bs.map (binEnc UB mode asl)).flatten ++ s) := by
      simp [List.append_assoc]
    rw [List.length_cons, hstream,
      parseBinsLoop_cons UB mode asl bs.length c b _ h1 h2 h3 h4 h5]
    rw [parseBinsLoop_roundtrip UB mode asl bs
      (c + (binEnc UB mode asl b).length) s
      (fun x hx => hv x (List.mem_cons_of_mem _ hx))]
    simp only []
    have hbin : Bin.mk b.weight b.lower b.offset_bits
        (if writesGcd mode b then b.gcd else 1) = b := by
      cases hwg : writesGcd mode b
      · simp only [hwg, Bool.false_eq_true, if_false]
        rw [← h6 hwg]
      · simp [hwg]
    rw [hbin]
    have hlen : c + (binEnc UB mode asl b).length +
        ((bs.map (binEnc UB mode asl)).flatten).length =
        c + (((b :: bs).map (binEnc UB mode asl)).flatten).length := by
      simp [List.length_append] <;> omega
    rw [hlen]

/-- `parse_bins` inverts `write_bins` for a table passing its read checks. -/
theorem parse_bins_roundtrip (UB : Nat) (mode : Mode) (asl : Nat)
    (bins : List Bin) (c : Nat) (s : List Bool)
    (hcount : bins.length < 2 ^ BITS_TO_ENCODE_N_BINS)
    (hfit : bins.length ≤ 2 ^ asl)
    (hone : bins.length = 1 → asl = 0)
    (hv : ∀ b ∈ bins, validBin UB mode asl b) :
    parse_bins UB mode asl ⟨c, write_bins UB mode asl bins ++ s⟩ =
      .ok (bins, ⟨c + (write_bins UB mode asl bins).length, s⟩) := by
  rw [write_bins, parse_bins, List.append_assoc]
  rw [readUint_toBits _ _ _ _ hcount]
  simp only []
  rw [if_neg (Nat.not_lt.mpr hfit)]
  rw [if_neg (by rintro ⟨e1, e2⟩; rw [hone e1] at e2; exact Nat.lt_irrefl 0 e2)]
  rw [parseBinsLoop_roundtrip UB mode asl bins _ _ hv]
  have hlen : c + BITS_TO_ENCODE_N_BINS +
      ((bins.map (binEnc UB mode asl)).flatten).length =
      c + (toBits bins.length BITS_TO_ENCODE_N_BINS ++
        (bins.map (binEnc UB mode asl)).flatten).length := by
    simp [List.length_append, length_toBits] <;> omega
  rw [hlen]

/-- `ChunkLatentMetadata::parse_from` inverts `ChunkLatentMetadata::write_to`. -/
theorem latent_roundtrip (UB : Nat) (mode : Mode)
    (l : ChunkLatentMetadata) (c : Nat) (s : List Bool)
    (hv : validLatent UB mode l) :
    ChunkLatentMetadata.parse_from UB ⟨c, l.write_to UB mode ++ s⟩ mode =
      .ok (l, ⟨c + (l.write_to UB mode).length, s⟩) := by
  obtain ⟨hasl, _, hcount, hfit, hone, hbins⟩ := hv
  rw [ChunkLatentMetadata.write_to, ChunkLatentMetadata.parse_from,
    List.append_assoc]
  rw [readUint_toBits _ _ _ _ hasl]
  simp only []
  rw [parse_bins_roundtrip UB mode l.ans_size_log l.bins _ _ hcount hfit hone hbins]
  simp only []
  have hlen : c + BITS_TO_ENCODE_ANS_SIZE_LOG +
      (write_bins UB mode l.ans_size_log l.bins).length =
      c + (toBits l.ans_size_log BITS_TO_ENCODE_ANS_SIZE_LOG ++
        write_bins UB mode l.ans_size_log l.bins).length := by
    simp [List.length_append, length_toBits] <;> omega
  rw [hlen]

/-- The per-latent loop of `ChunkMetadata::parse_from` inverts the per-latent
loop of `ChunkMetadata::write_to`. -/
theorem parseLatentsLoop_roundtrip (UB : Nat) (mode : Mode) :
    ∀ (ls : List ChunkLatentMetadata) (c : Nat) (s : List Bool),
      (∀ l ∈ ls, validLatent UB mode l) →
      parseLatentsLoop UB mode ls.length
          ⟨c, (ls.map (fun l => l.write_to UB mode)).flatten ++ s⟩ =
        .ok (ls, ⟨c + ((ls.map (fun l => l.write_to UB mode)).flatten).length, s⟩)
  | [], c, s, _ => by simp [parseLatentsLoop]
  | l :: ls, c, s, hv => by
    have hstream : (((l :: ls).map (fun x => x.write_to UB mode)).flatten) ++ s =
        l.write_to UB mode ++ ((ls.map (fun x => x.write_to UB mode)).flatten ++ s) := by
      simp [List.append_assoc]
    rw [List.length_cons, parseLatentsLoop, hstream]
    rw [latent_roundtrip UB mode l c _ (hv l (by simp))]
    simp only []
    rw [parseLatentsLoop_roundtrip UB mode ls (c + (l.write_to UB mode).length) s
      (fun x hx => hv x (List.mem_cons_of_mem _ hx))]
    simp only []
    have hlen : c + (l.write_to UB mode).length +
        ((ls.map (fun x => x.write_to UB mode)).flatten).length =
        c + (((l :: ls).map (fun x => x.write_to UB mode)).flatten).length := by
      simp [List.length_append] <;> omega
    rw [hlen]

/-- What `ChunkMetadata::parse_from` returns for a written chunk: identical
to the written value except that in wrapped mode `n` and
`compressed_body_size` are not stored and parse fills them with 0. -/
def expectedParse (flags : Flags) (m : ChunkMetadata) : ChunkMetadata :=
  match flags.use_wrapped_mode with
  | true => { m with n := 0, compressed_body_size := 0 }
  | false => m

/-- `ChunkMetadata::parse_from` applied to the pre-padding bits of
`ChunkMetadata::write_to`: every field parses back and only the final
byte-alignment drain remains. -/
theorem parse_from_writeToBody (UB : Nat) (m : ChunkMetadata) (flags : Flags)
    (c : Nat) (s : List Bool)
    (hv : validMeta UB m)
    (hn : flags.use_wrapped_mode = false → m.n < 2 ^ BITS_TO_ENCODE_N_ENTRIES)
    (hcbs : flags.use_wrapped_mode = false →
      m.compressed_body_size < 2 ^ BITS_TO_ENCODE_COMPRESSED_BODY_SIZE) :
    ChunkMetadata.parse_from UB ⟨c, m.writeToBody UB flags ++ s⟩ flags =
      match BitReader.drainEmptyByte
          "nonzero bits in end of final byte of chunk metadata"
          ⟨c + (m.writeToBody UB flags).length, s⟩ with
      | .error e => .error e
      | .ok (_, r) => .ok (expectedParse flags m, r) := by
  obtain ⟨hdelta, hnl, hbase, hls⟩ := hv
  obtain ⟨n, cbs, mode, delta, latents⟩ := m
  simp only at hdelta hnl hbase hls hn hcbs
  obtain ⟨wrapped⟩ := flags
  cases wrapped with
  | true =>
    cases mode with
    | Classic =>
      simp only [ChunkMetadata.writeToBody, ChunkMetadata.parse_from,
        expectedParse, List.nil_append, List.append_assoc]
      rw [readUint_toBits 0 BITS_TO_ENCODE_MODE _ _ (Nat.two_pow_pos _)]
      try simp only []
      rw [if_pos trivial]
      try simp only []
      rw [readUint_toBits _ _ _ _ hdelta]
      try simp only []
      rw [← hnl]
      rw [parseLatentsLoop_roundtrip UB Mode.Classic latents _ _ hls]
      try simp only []
      have hlen : c + BITS_TO_ENCODE_MODE + BITS_TO_ENCODE_DELTA_ENCODING_ORDER +
          ((latents.map (fun l => l.write_to UB Mode.Classic)).flatten).length =
          c + (toBits 0 BITS_TO_ENCODE_MODE ++
            (toBits delta BITS_TO_ENCODE_DELTA_ENCODING_ORDER ++
              (latents.map (fun l => l.write_to UB Mode.Classic)).flatten)).length := by
        simp [List.length_append, length_toBits] <;> omega
      rw [hlen]
    | Gcd =>
      simp only [ChunkMetadata.writeToBody, ChunkMetadata.parse_from,
        expectedParse, List.nil_append, List.append_assoc]
      rw [readUint_toBits 1 BITS_TO_ENCODE_MODE _ _ (by norm_num [BITS_TO_ENCODE_MODE])]
      try simp only []
      rw [if_pos trivial]
      rw [if_neg (by decide : ¬((1:Nat) = 0))]
      try simp only []
      rw [readUint_toBits _ _ _ _ hdelta]
      try simp only []
      rw [← hnl]
      rw [parseLatentsLoop_roundtrip UB Mode.Gcd latents _ _ hls]
      try simp only []
      have hlen : c + BITS_TO_ENCODE_MODE + BITS_TO_ENCODE_DELTA_ENCODING_ORDER +
          ((latents.map (fun l => l.write_to UB Mode.Gcd)).flatten).length =
          c + (toBits 1 BITS_TO_ENCODE_MODE ++
            (toBits delta BITS_TO_ENCODE_DELTA_ENCODING_ORDER ++
              (latents.map (fun l => l.write_to UB Mode.Gcd)).flatten)).length := by
        simp [List.length_append, length_toBits] <;> omega
      rw [hlen]
    | FloatMult base =>
      simp only [ChunkMetadata.writeToBody, ChunkMetadata.parse_from,
        expectedParse, List.nil_append, List.append_assoc]
      rw [readUint_toBits 2 BITS_TO_ENCODE_MODE _ _ (by norm_num [BITS_TO_ENCODE_MODE])]
      try simp only []
      rw [if_pos trivial]
      rw [if_neg (by decide : ¬((2:Nat) = 0)), if_neg (by decide : ¬((2:Nat) = 1))]
      rw [readUint_toBits _ _ _ _ (hbase base rfl)]
      try simp only []
      rw [readUint_toBits _ _ _ _ hdelta]
      try simp only []
      rw [← hnl]
      rw [parseLatentsLoop_roundtrip UB (Mode.FloatMult base) latents _ _ hls]
      try simp only []
      have hlen : c + BITS_TO_ENCODE_MODE + UB + BITS_TO_ENCODE_DELTA_ENCODING_ORDER +
          ((latents.map (fun l => l.write_to UB (Mode.FloatMult base))).flatten).length =
          c + (toBits 2 BITS_TO_ENCODE_MODE ++
            (toBits base UB ++
              (toBits delta BITS_TO_ENCODE_DELTA_ENCODING_ORDER ++
                (latents.map (fun l => l.write_to UB (Mode.FloatMult base))).flatten))).length := by
        simp [List.length_append, length_toBits] <;> omega
      rw [hlen]
  | false =>
    cases mode with
    | Classic =>
      simp only [ChunkMetadata.writeToBody, ChunkMetadata.parse_from,
        expectedParse, List.nil_append, List.append_assoc]
      rw [readUint_toBits _ _ _ _ (hn rfl)]
      try simp only []
      rw [readUint_toBits _ _ _ _ (hcbs rfl)]
      try simp only []
      rw [readUint_toBits 0 BITS_TO_ENCODE_MODE _ _ (Nat.two_pow_pos _)]
      try simp only []
      rw [if_pos trivial]
      try simp only []
      rw [readUint_toBits _ _ _ _ hdelta]
      try simp only []
      rw [← hnl]
      rw [parseLatentsLoop_roundtrip UB Mode.Classic latents _ _ hls]
      try simp only []
      have hlen : c + BITS_TO_ENCODE_N_ENTRIES + BITS_TO_ENCODE_COMPRESSED_BODY_SIZE +
          BITS_TO_ENCODE_MODE + BITS_TO_ENCODE_DELTA_ENCODING_ORDER +
          ((latents.map (fun l => l.write_to UB Mode.Classic)).flatten).length =
          c + (toBits n BITS_TO_ENCODE_N_ENTRIES ++
            (toBits cbs BITS_TO_ENCODE_COMPRESSED_BODY_SIZE ++
              (toBits 0 BITS_TO_ENCODE_MODE ++
                (toBits delta BITS_TO_ENCODE_DELTA_ENCODING_ORDER ++
                  (latents.map (fun l => l.write_to UB Mode.Classic)).flatten)))).length := by
        simp [List.length_append, length_toBits] <;> omega
      rw [hlen]
    | Gcd =>
      simp only [ChunkMetadata.writeToBody, ChunkMetadata.parse_from,
        expectedParse, List.nil_append, List.append_assoc]
      rw [readUint_toBits _ _ _ _ (hn rfl)]
      try simp only []
      rw [readUint_toBits _ _ _ _ (hcbs rfl)]
      try simp only []
      rw [readUint_toBits 1 BITS_TO_ENCODE_MODE _ _ (by norm_num [BITS_TO_ENCODE_MODE])]
      try simp only []
      rw [if_pos trivial]
      rw [if_neg (by decide : ¬((1:Nat) = 0))]
      try simp only []
      rw [readUint_toBits _ _ _ _ hdelta]
      try simp only []
      rw [← hnl]
      rw [parseLatentsLoop_roundtrip UB Mode.Gcd latents _ _ hls]
      try simp only []
      have hlen : c + BITS_TO_ENCODE_N_ENTRIES + BITS_TO_ENCODE_COMPRESSED_BODY_SIZE +
          BITS_TO_ENCODE_MODE + BITS_TO_ENCODE_DELTA_ENCODING_ORDER +
          ((latents.map (fun l => l.write_to UB Mode.Gcd)).flatten).length =
          c + (toBits n BITS_TO_ENCODE_N_ENTRIES ++
            (toBits cbs BITS_TO_ENCODE_COMPRESSED_BODY_SIZE ++
              (toBits 1 BITS_TO_ENCODE_MODE ++
                (toBits delta BITS_TO_ENCODE_DELTA_ENCODING_ORDER ++
                  (latents.map (fun l => l.write_to UB Mode.Gcd)).flatten)))).length := by
        simp [List.length_append, length_toBits] <;> omega
      rw [hlen]
    | FloatMult base =>
      simp only [ChunkMetadata.writeToBody, ChunkMetadata.parse_from,
        expectedParse, List.nil_append, List.append_assoc]
      rw [readUint_toBits _ _ _ _ (hn rfl)]
      try simp only []
      rw [readUint_toBits _ _ _ _ (hcbs rfl)]
      try simp only []
      rw [readUint_toBits 2 BITS_TO_ENCODE_MODE _ _ (by norm_num [BITS_TO_ENCODE_MODE])]
      try simp only []
      rw [if_pos trivial]
      rw [if_neg (by decide : ¬((2:Nat) = 0)), if_neg (by decide : ¬((2:Nat) = 1))]
      rw [readUint_toBits _ _ _ _ (hbase base rfl)]
      try simp only []
      rw [readUint_toBits _ _ _ _ hdelta]
      try simp only []
      rw [← hnl]
      rw [parseLatentsLoop_roundtrip UB (Mode.FloatMult base) latents _ _ hls]
      try simp only []
      have hlen : c + BITS_TO_ENCODE_N_ENTRIES + BITS_TO_ENCODE_COMPRESSED_BODY_SIZE +
          BITS_TO_ENCODE_MODE + UB + BITS_TO_ENCODE_DELTA_ENCODING_ORDER +
          ((latents.map (fun l => l.write_to UB (Mode.FloatMult base))).flatten).length =
          c + (toBits n BITS_TO_ENCODE_N_ENTRIES ++
            (toBits cbs BITS_TO_ENCODE_COMPRESSED_BODY_SIZE ++
              (toBits 2 BITS_TO_ENCODE_MODE ++
                (toBits base UB ++
                  (toBits delta BITS_TO_ENCODE_DELTA_ENCODING_ORDER ++
                    (latents.map (fun l => l.write_to UB (Mode.FloatMult base))).flatten))))).length := by
        simp [List.length_append, length_toBits] <;> omega
      rw [hlen]

/-- Full round trip at any byte-aligned stream position: parsing the bits
`ChunkMetadata::write_to` produced (with arbitrary following bits) returns
the expected metadata and stops exactly after the padding. -/
theorem chunk_parse_from_write_to (UB : Nat) (m : ChunkMetadata) (flags : Flags)
    (c : Nat) (s : List Bool)
    (hc : c % 8 = 0)
    (hv : validMeta UB m)
    (hn : flags.use_wrapped_mode = false → m.n < 2 ^ BITS_TO_ENCODE_N_ENTRIES)
    (hcbs : flags.use_wrapped_mode = false →
      m.compressed_body_size < 2 ^ BITS_TO_ENCODE_COMPRESSED_BODY_SIZE) :
    ChunkMetadata.parse_from UB ⟨c, ChunkMetadata.write_to UB m flags [] ++ s⟩ flags =
      .ok (expectedParse flags m,
        ⟨c + (ChunkMetadata.write_to UB m flags []).length, s⟩) := by
  have hw : ChunkMetadata.write_to UB m flags [] =
      m.writeToBody UB flags ++
        List.replicate ((8 - (m.writeToBody UB flags).length % 8) % 8) false := by
    rw [ChunkMetadata.write_to, List.nil_append, finishByte]
  rw [hw, List.append_assoc]
  rw [parse_from_writeToBody UB m flags c _ hv hn hcbs]
  rw [drainEmptyByte_ok _ _ _ _ (by omega)]
  simp only [List.length_append, List.length_replicate]
  rw [Nat.add_assoc]

/-! ## Success inversions -/

/-- Every bin produced by the `parse_bins` loop has weight at least 1
(the stream stores `weight - 1` and parse adds the 1 back). -/
theorem parseBinsLoop_weight_pos (UB : Nat) (mode : Mode) (asl : Nat) :
    ∀ (k : Nat) (r : BitReader) (bins : List Bin) (r2 : BitReader),
      parseBinsLoop UB mode asl k r = .ok (bins, r2) → ∀ b ∈ bins, 1 ≤ b.weight
  | 0, r, bins, r2, h => by
    simp only [parseBinsLoop] at h
    cases h
    intro b hb
    cases hb
  | k + 1, r, bins, r2, h => by
    rw [parseBinsLoop] at h
    split at h
    · cases h
    · split at h
      · cases h
      · split at h
        · cases h
        · split at h
          · cases h
          · split at h
            · cases h
            · split at h
              · cases h
              · rename_i heq
                cases h
                intro b hb
                rcases List.mem_cons.mp hb with hb1 | hb2
                · subst hb1; simp
                · exact parseBinsLoop_weight_pos UB mode asl k _ _ _ heq b hb2

/-- The latent loop of `ChunkMetadata::parse_from` returns exactly as many
latents as it was asked to read. -/
theorem parseLatentsLoop_length (UB : Nat) (mode : Mode) :
    ∀ (k : Nat) (r : BitReader) (ls : List ChunkLatentMetadata) (r2 : BitReader),
      parseLatentsLoop UB mode k r = .ok (ls, r2) → ls.length = k
  | 0, r, ls, r2, h => by
    simp only [parseLatentsLoop] at h
    cases h
    rfl
  | k + 1, r, ls, r2, h => by
    rw [parseLatentsLoop] at h
    split at h
    · cases h
    · split at h
      · cases h
      · rename_i heq
        cases h
        simp [parseLatentsLoop_length UB mode k _ _ _ heq]

/-- Any successfully parsed chunk has one latent per latent required by its
mode. -/
theorem parse_from_ok_latents (UB : Nat) (r : BitReader) (flags : Flags)
    (m : ChunkMetadata) (r2 : BitReader)
    (h : ChunkMetadata.parse_from UB r flags = .ok (m, r2)) :
    m.latents.length = m.mode.n_latents := by
  rw [ChunkMetadata.parse_from] at h
  split at h
  · cases h
  · split at h
    · cases h
    · split at h
      · cases h
      · split at h
        · cases h
        · split at h
          · cases h
          · split at h
            · cases h
            · cases h
              exact parseLatentsLoop_length UB _ _ _ _ _ (by assumption)

/-! ## Page metadata -/

/-- Modelled from the spec: `crate::delta::DeltaMoments`, a fixed-size
sequence of `U` values of length equal to the latent's delta order, written
at full `U.BITS` width each and parsed back by an externally supplied
order (spec sections 3, 4.3). -/
structure DeltaMoments where
  moments : List Nat
deriving DecidableEq

/-- Modelled from the spec: `DeltaMoments::write_to` writes each moment at
full `U.BITS` width. -/
def DeltaMoments.write_to (UB : Nat) (d : DeltaMoments) : List Bool :=
  (d.moments.map (fun x => toBits x UB)).flatten

/-- Read `count` unsigned integers of `w` bits each (the shared shape of
`DeltaMoments::parse_from` and the final-ANS-state loop). -/
def readNUints (w : Nat) : Nat → BitReader → Except PcoError (List Nat × BitReader)
  | 0, r => .ok ([], r)
  | count + 1, r =>
    match r.readUint w with
    | .error e => .error e
    | .ok (x, r) =>
      match readNUints w count r with
      | .error e => .error e
      | .ok (xs, r) => .ok (x :: xs, r)

/-- Modelled from the spec: `DeltaMoments::parse_from` reads `delta_order`
full-width `U` values. -/
def DeltaMoments.parse_from (UB : Nat) (delta_order : Nat) (r : BitReader) :
    Except PcoError (DeltaMoments × BitReader) :=
  match readNUints UB delta_order r with
  | .error e => .error e
  | .ok (xs, r) => .ok ({ moments := xs }, r)

/-- `PageLatentMetadata`. -/
structure PageLatentMetadata where
  delta_moments : DeltaMoments
  ans_final_state_idxs : List Nat
deriving DecidableEq

/-- `PageLatentMetadata::write_to`. -/
def PageLatentMetadata.write_to (UB : Nat) (p : PageLatentMetadata)
    (ans_size_log : Nat) : List Bool :=
  p.delta_moments.write_to UB ++
    (p.ans_final_state_idxs.map (fun st => toBits st ans_size_log)).flatten

/-- `PageLatentMetadata::parse_from`. -/
def PageLatentMetadata.parse_from (UB : Nat) (r : BitReader)
    (delta_order ans_size_log : Nat) :
    Except PcoError (PageLatentMetadata × BitReader) :=
  match DeltaMoments.parse_from UB delta_order r with
  | .error e => .error e
  | .ok (dm, r) =>
    match readNUints ans_size_log ANS_INTERLEAVING r with
    | .error e => .error e
    | .ok (sts, r) =>
      .ok ({ delta_moments := dm, ans_final_state_idxs := sts }, r)

/-- `PageMetadata`. -/
structure PageMetadata where
  latents : List PageLatentMetadata
deriving DecidableEq

/-- `PageMetadata::write_to` (the source iterates the `ans_size_logs`
iterator and indexes `self.latents` with the running index, a panic when the
iterator is longer than `latents`; the zip below agrees with it whenever
`ans_size_logs` is no longer than `latents`, the only case the source
supports). -/
def PageMetadata.write_to (UB : Nat) (p : PageMetadata)
    (ans_size_logs : List Nat) (writer : List Bool) : List Bool :=
  finishByte (writer ++
    ((p.latents.zip ans_size_logs).map (fun q => q.1.write_to UB q.2)).flatten)

/-- The per-latent loop of `PageMetadata::parse_from`, indexed because the
delta order of latent `i` is `chunk_meta.latent_delta_order i`. -/
def parsePageLatentsLoop (UB : Nat) (cm : ChunkMetadata) :
    Nat → List ChunkLatentMetadata → BitReader →
      Except PcoError (List PageLatentMetadata × BitReader)
  | _, [], r => .ok ([], r)
  | i, lm :: lms, r =>
    match PageLatentMetadata.parse_from UB r (cm.latent_delta_order i)
        lm.ans_size_log with
    | .error e => .error e
    | .ok (pl, r) =>
      match parsePageLatentsLoop UB cm (i + 1) lms r with
      | .error e => .error e
      | .ok (pls, r) => .ok (pl :: pls, r)

/-- `PageMetadata::parse_from`. -/
def PageMetadata.parse_from (UB : Nat) (r : BitReader) (chunk_meta : ChunkMetadata) :
    Except PcoError (PageMetadata × BitReader) :=
  match parsePageLatentsLoop UB chunk_meta 0 chunk_meta.latents r with
  | .error e => .error e
  | .ok (latents, r) =>
    match r.drainEmptyByte "non-zero bits at end of data page metadata" with
    | .error e => .error e
    | .ok (_, r) => .ok ({ latents := latents }, r)

/-- `PagingSpec`. -/
inductive PagingSpec where
  | SinglePage
  | ExactPageSizes (sizes : List Nat)
deriving DecidableEq

/-! ## Page metadata lemmas -/

theorem readNUints_roundtrip (w : Nat) :
    ∀ (xs : List Nat) (c : Nat) (s : List Bool),
      (∀ x ∈ xs, x < 2 ^ w) →
      readNUints w xs.length ⟨c, (xs.map (fun x => toBits x w)).flatten ++ s⟩ =
        .ok (xs, ⟨c + ((xs.map (fun x => toBits x w)).flatten).length, s⟩)
  | [], c, s, _ => by simp [readNUints]
  | x :: xs, c, s, hv => by
    have hstream : (((x :: xs).map (fun y => toBits y w)).flatten) ++ s =
        toBits x w ++ ((xs.map (fun y => toBits y w)).flatten ++ s) := by
      simp [List.append_assoc]
    rw [List.length_cons, readNUints, hstream]
    rw [readUint_toBits _ _ _ _ (hv x (by simp))]
    simp only []
    rw [readNUints_roundtrip w xs (c + w) s
      (fun y hy => hv y (List.mem_cons_of_mem _ hy))]
    simp only []
    have hlen : c + w + ((xs.map (fun y => toBits y w)).flatten).length =
        c + (((x :: xs).map (fun y => toBits y w)).flatten).length := by
      simp [List.length_append, length_toBits] <;> omega
    rw [hlen]

/-- A page latent whose fields fit the widths the chunk prescribes for it. -/
def validPageLatent (UB order asl : Nat) (pl : PageLatentMetadata) : Prop :=
  pl.delta_moments.moments.length = order ∧
  (∀ x ∈ pl.delta_moments.moments, x < 2 ^ UB) ∧
  pl.ans_final_state_idxs.length = ANS_INTERLEAVING ∧
  (∀ st ∈ pl.ans_final_state_idxs, st < 2 ^ asl)

instance (UB order asl : Nat) (pl : PageLatentMetadata) :
    Decidable (validPageLatent UB order asl pl) := by
  unfold validPageLatent; infer_instance

/-- `PageLatentMetadata::parse_from` inverts `PageLatentMetadata::write_to`. -/
theorem page_latent_roundtrip (UB order asl : Nat)
    (pl : PageLatentMetadata) (c : Nat) (s : List Bool)
    (hv : validPageLatent UB order asl pl) :
    PageLatentMetadata.parse_from UB ⟨c, pl.write_to UB asl ++ s⟩ order asl =
      .ok (pl, ⟨c + (pl.write_to UB asl).length, s⟩) := by
  obtain ⟨hord, hmom, hlen4, hst⟩ := hv
  rw [PageLatentMetadata.write_to, PageLatentMetadata.parse_from,
    DeltaMoments.parse_from, DeltaMoments.write_to, List.append_assoc]
  rw [← hord]
  rw [readNUints_roundtrip UB pl.delta_moments.moments c _ hmom]
  simp only []
  rw [← hlen4]
  rw [readNUints_roundtrip asl pl.ans_final_state_idxs _ _ hst]
  simp only []
  have hlen : c + ((pl.delta_moments.moments.map (fun x => toBits x UB)).flatten).length +
      ((pl.ans_final_state_idxs.map (fun st => toBits st asl)).flatten).length =
      c + ((pl.delta_moments.moments.map (fun x => toBits x UB)).flatten ++
        (pl.ans_final_state_idxs.map (fun st => toBits st asl)).flatten).length := by
    simp [List.length_append] <;> omega
  rw [hlen]

/-- Validity of a page's latents against the chunk latents they are parsed
with, carrying the running latent index. -/
def pageLatentsValid (UB : Nat) (cm : ChunkMetadata) :
    Nat → List ChunkLatentMetadata → List PageLatentMetadata → Prop
  | _, [], [] => True
  | i, lm :: lms, pl :: pls =>
    validPageLatent UB (cm.latent_delta_order i) lm.ans_size_log pl ∧
      pageLatentsValid UB cm (i + 1) lms pls
  | _, _, _ => False

/-- The page latent loop inverts the page write loop. -/
theorem parsePageLatentsLoop_roundtrip (UB : Nat) (cm : ChunkMetadata) :
    ∀ (lms : List ChunkLatentMetadata) (pls : List PageLatentMetadata)
      (i c : Nat) (s : List Bool),
      pageLatentsValid UB cm i lms pls →
      parsePageLatentsLoop UB cm i lms
          ⟨c, ((pls.zip (lms.map (fun lm => lm.ans_size_log))).map
            (fun q => q.1.write_to UB q.2)).flatten ++ s⟩ =
        .ok (pls, ⟨c + (((pls.zip (lms.map (fun lm => lm.ans_size_log))).map
          (fun q => q.1.write_to UB q.2)).flatten).length, s⟩)
  | [], [], i, c, s, _ => by simp [parsePageLatentsLoop]
  | [], pl :: pls, i, c, s, hv => absurd hv (by simp [pageLatentsValid])
  | lm :: lms, [], i, c, s, hv => absurd hv (by simp [pageLatentsValid])
  | lm :: lms, pl :: pls, i, c, s, hv => by
    obtain ⟨h1, h2⟩ := hv
    have hstream : ((((pl :: pls).zip ((lm :: lms).map (fun x => x.ans_size_log))).map
          (fun q => q.1.write_to UB q.2)).flatten) ++ s =
        pl.write_to UB lm.ans_size_log ++
          (((pls.zip (lms.map (fun x => x.ans_size_log))).map
            (fun q => q.1.write_to UB q.2)).flatten ++ s) := by
      simp [List.append_assoc]
    rw [parsePageLatentsLoop, hstream]
    rw [page_latent_roundtrip UB (cm.latent_delta_order i)
      lm.ans_size_log pl c _ h1]
    simp only []
    rw [parsePageLatentsLoop_roundtrip UB cm lms pls (i + 1)
      (c + (pl.write_to UB lm.ans_size_log).length) s h2]
    simp only []
    have hlen : c + (pl.write_to UB lm.ans_size_log).length +
        (((pls.zip (lms.map (fun x => x.ans_size_log))).map
          (fun q => q.1.write_to UB q.2)).flatten).length =
        c + ((((pl :: pls).zip ((lm :: lms).map (fun x => x.ans_size_log))).map
          (fun q => q.1.write_to UB q.2)).flatten).length := by
      simp [List.length_append] <;> omega
    rw [hlen]

/-- `PageMetadata::parse_from` applied to the pre-padding bits written by
`PageMetadata::write_to` with the chunk's own table sizes: only the final
byte-alignment drain remains. -/
theorem page_parse_from_write_body (UB : Nat) (cm : ChunkMetadata)
    (p : PageMetadata) (c : Nat) (s : List Bool)
    (hv : pageLatentsValid UB cm 0 cm.latents p.latents) :
    PageMetadata.parse_from UB
        ⟨c, ((p.latents.zip (cm.latents.map (fun lm => lm.ans_size_log))).map
          (fun q => q.1.write_to UB q.2)).flatten ++ s⟩ cm =
      match BitReader.drainEmptyByte "non-zero bits at end of data page metadata"
          ⟨c + (((p.latents.zip (cm.latents.map (fun lm => lm.ans_size_log))).map
            (fun q => q.1.write_to UB q.2)).flatten).length, s⟩ with
      | .error e => .error e
      | .ok (_, r) => .ok (p, r) := by
  rw [PageMetadata.parse_from]
  rw [parsePageLatentsLoop_roundtrip UB cm cm.latents p.latents 0 c s hv]

/-- Full page round trip at a byte-aligned position. -/
theorem page_parse_from_write_to (UB : Nat) (cm : ChunkMetadata)
    (p : PageMetadata) (c : Nat) (s : List Bool)
    (hc : c % 8 = 0)
    (hv : pageLatentsValid UB cm 0 cm.latents p.latents) :
    PageMetadata.parse_from UB
        ⟨c, PageMetadata.write_to UB p (cm.latents.map (fun lm => lm.ans_size_log)) [] ++ s⟩ cm =
      .ok (p, ⟨c + (PageMetadata.write_to UB p
        (cm.latents.map (fun lm => lm.ans_size_log)) []).length, s⟩) := by
  have hw : PageMetadata.write_to UB p (cm.latents.map (fun lm => lm.ans_size_log)) [] =
      ((p.latents.zip (cm.latents.map (fun lm => lm.ans_size_log))).map
        (fun q => q.1.write_to UB q.2)).flatten ++
      List.replicate ((8 - (((p.latents.zip (cm.latents.map (fun lm => lm.ans_size_log))).map
        (fun q => q.1.write_to UB q.2)).flatten).length % 8) % 8) false := by
    rw [PageMetadata.write_to, List.nil_append, finishByte]
  rw [hw, List.append_assoc]
  rw [page_parse_from_write_body UB cm p c _ hv]
  rw [drainEmptyByte_ok _ _ _ _ (by omega)]
  simp only [List.length_append, List.length_replicate]
  rw [Nat.add_assoc]

/-! ## Small arithmetic helpers for table validity -/

theorem mem_le_list_sum (l : List Nat) (x : Nat) (hx : x ∈ l) : x ≤ l.sum := by
  induction l with
  | nil => cases hx
  | cons a l ih =>
    rcases List.mem_cons.mp hx with h | h
    · subst h; simp [List.sum_cons]
    · have := ih h
      simp only [List.sum_cons]
      omega

theorem length_le_list_sum (l : List Nat) (h : ∀ x ∈ l, 1 ≤ x) :
    l.length ≤ l.sum := by
  induction l with
  | nil => simp
  | cons a l ih =>
    have ha := h a (by simp)
    have := ih (fun x hx => h x (List.mem_cons_of_mem _ hx))
    simp only [List.length_cons, List.sum_cons]
    omega

/-! ## Settled claims -/

/-- C1 (amended): for a `ChunkMetadata` whose mode, delta order 0..=7 and
per-latent non-empty bucket tables with weights (each at least 1) summing to
`2 ^ ans_size_log` satisfy the additional representability conditions the
stream format forces (each field fits its width, a single-bin table has
`ans_size_log = 0`, and in standalone mode `n` and `compressed_body_size`
fit their fields), parsing the stream written by `write_to` with the same
flags returns the metadata exactly — except that in wrapped mode the `n`
and `compressed_body_size` fields are not stored, and parse returns them
as 0. -/
theorem C1_roundtrip (UB : Nat) (m : ChunkMetadata) (flags : Flags)
    (hdelta : m.delta_encoding_order ≤ 7)
    (hnl : m.latents.length = m.mode.n_latents)
    (hbase : floatMultBaseOk UB m.mode)
    (hlat : ∀ l ∈ m.latents,
      l.bins ≠ [] ∧
      (l.bins.map Bin.weight).sum = 2 ^ l.ans_size_log ∧
      l.ans_size_log < 2 ^ BITS_TO_ENCODE_ANS_SIZE_LOG ∧
      l.bins.length < 2 ^ BITS_TO_ENCODE_N_BINS ∧
      (l.bins.length = 1 → l.ans_size_log = 0) ∧
      ∀ b ∈ l.bins, 1 ≤ b.weight ∧ b.lower < 2 ^ UB ∧ b.offset_bits ≤ UB ∧
        (writesGcd m.mode b = true → b.gcd < 2 ^ UB) ∧
        (writesGcd m.mode b = false → b.gcd = 1))
    (hn : flags.use_wrapped_mode = false → m.n < 2 ^ BITS_TO_ENCODE_N_ENTRIES)
    (hcbs : flags.use_wrapped_mode = false →
      m.compressed_body_size < 2 ^ BITS_TO_ENCODE_COMPRESSED_BODY_SIZE) :
    ChunkMetadata.parse_from UB ⟨0, ChunkMetadata.write_to UB m flags []⟩ flags =
      .ok (expectedParse flags m,
        ⟨(ChunkMetadata.write_to UB m flags []).length, []⟩) := by
  have hv : validMeta UB m := by
    refine ⟨?_, hnl, hbase, ?_⟩
    · have : (2:Nat) ^ BITS_TO_ENCODE_DELTA_ENCODING_ORDER = 8 := by
        norm_num [BITS_TO_ENCODE_DELTA_ENCODING_ORDER]
      omega
    · intro l hl
      obtain ⟨hne, hsum, hasl, hcount, hone, hb⟩ := hlat l hl
      refine ⟨hasl, hne, hcount, ?_, hone, ?_⟩
      · have h1 : ∀ x ∈ l.bins.map Bin.weight, 1 ≤ x := by
          intro x hx
          rcases List.mem_map.mp hx with ⟨b, hbmem, rfl⟩
          exact (hb b hbmem).1
        have h2 := length_le_list_sum (l.bins.map Bin.weight) h1
        rw [hsum, List.length_map] at h2
        exact h2
      · intro b hbmem
        obtain ⟨hw1, hlow, hob, hg1, hg2⟩ := hb b hbmem
        have hwsum : b.weight ≤ (l.bins.map Bin.weight).sum :=
          mem_le_list_sum _ _ (List.mem_map_of_mem _ hbmem)
        rw [hsum] at hwsum
        exact ⟨hw1, hwsum, hlow, hob, hg1, hg2⟩
  have h := chunk_parse_from_write_to UB m flags 0 [] (by norm_num) hv hn hcbs
  simpa using h

set_option maxRecDepth 100000 in
/-- C1 counterexample: a valid chunk metadata with `n = 1` (Classic mode,
delta order 0, one non-empty bucket table whose single weight 1 sums to
`2 ^ 0`), written and re-parsed with the wrapped flag setting, parses
successfully to a *different* value: the parsed `n` is 0, not 1. -/
theorem C1_wrapped_counterexample :
    ChunkMetadata.parse_from 8
        ⟨0, ChunkMetadata.write_to 8
          ⟨1, 0, Mode.Classic, 0, [⟨0, [⟨1, 0, 0, 1⟩]⟩]⟩ ⟨true⟩ []⟩ ⟨true⟩ =
      .ok (⟨0, 0, Mode.Classic, 0, [⟨0, [⟨1, 0, 0, 1⟩]⟩]⟩, ⟨40, []⟩) ∧
    (⟨0, 0, Mode.Classic, 0, [⟨0, [⟨1, 0, 0, 1⟩]⟩]⟩ : ChunkMetadata) ≠
      ⟨1, 0, Mode.Classic, 0, [⟨0, [⟨1, 0, 0, 1⟩]⟩]⟩ :=
  ⟨by decide, by decide⟩

/-- The chunk of the spec's example scenario (`n = 1000`, Classic mode, one
latent with `ans_size_log = 2` and two bins of weight 2), with a nonzero
`compressed_body_size`. -/
def exampleChunk : ChunkMetadata :=
  ⟨1000, 7, Mode.Classic, 0,
    [⟨2, [⟨2, 0, 0, 1⟩, ⟨2, 5, 1, 1⟩]⟩]⟩

set_option maxRecDepth 1000000 in
theorem C1_witness :
    ChunkMetadata.parse_from 8 ⟨0, ChunkMetadata.write_to 8 exampleChunk ⟨false⟩ []⟩ ⟨false⟩ =
      .ok (exampleChunk, ⟨112, []⟩) := by
  have h := C1_roundtrip 8 exampleChunk ⟨false⟩ (by decide) (by decide)
    (by decide) (by decide) (by decide) (by decide)
  exact h.trans (by decide)

/-- C2: each of the three bucket-table conditions is rejected by
`parse_bins` with a corruption error, and (fourth conjunct) such an error
aborts `ChunkMetadata::parse_from` for the whole chunk: a bucket count
exceeding `2 ^ ans_size_log`; exactly one bucket with `ans_size_log ≠ 0`;
a bucket `offset_bits` exceeding `U.BITS`. -/
theorem C2_bin_validation :
    (∀ (UB : Nat) (mode : Mode) (asl nb c : Nat) (rest : List Bool),
      nb < 2 ^ BITS_TO_ENCODE_N_BINS → 2 ^ asl < nb →
      parse_bins UB mode asl ⟨c, toBits nb BITS_TO_ENCODE_N_BINS ++ rest⟩ =
        .error (.corruption "ANS size log is too small for number of bins")) ∧
    (∀ (UB : Nat) (mode : Mode) (asl c : Nat) (rest : List Bool),
      0 < asl →
      parse_bins UB mode asl ⟨c, toBits 1 BITS_TO_ENCODE_N_BINS ++ rest⟩ =
        .error (.corruption "Only 1 bin but ANS size log should be 0")) ∧
    (∀ (UB : Nat) (mode : Mode) (asl k c w0 lower ob : Nat) (rest : List Bool),
      w0 < 2 ^ asl → lower < 2 ^ UB → ob < 2 ^ bits_to_encode_offset_bits UB →
      UB < ob →
      parseBinsLoop UB mode asl (k + 1)
          ⟨c, toBits w0 asl ++ (toBits lower UB ++
            (toBits ob (bits_to_encode_offset_bits UB) ++ rest))⟩ =
        .error (.corruption "offset bits exceeds data type bits")) ∧
    (∀ (UB : Nat) (asl nb c delta : Nat) (rest : List Bool),
      delta < 2 ^ BITS_TO_ENCODE_DELTA_ENCODING_ORDER →
      asl < 2 ^ BITS_TO_ENCODE_ANS_SIZE_LOG →
      nb < 2 ^ BITS_TO_ENCODE_N_BINS → 2 ^ asl < nb →
      ChunkMetadata.parse_from UB
          ⟨c, toBits 0 BITS_TO_ENCODE_MODE ++
            (toBits delta BITS_TO_ENCODE_DELTA_ENCODING_ORDER ++
              (toBits asl BITS_TO_ENCODE_ANS_SIZE_LOG ++
                (toBits nb BITS_TO_ENCODE_N_BINS ++ rest)))⟩ ⟨true⟩ =
        .error (.corruption "ANS size log is too small for number of bins")) := by
  refine ⟨?_, ?_, ?_, ?_⟩
  · intro UB mode asl nb c rest h1 h2
    rw [parse_bins, readUint_toBits _ _ _ _ h1]
    simp only []
    rw [if_pos h2]
  · intro UB mode asl c rest hasl
    rw [parse_bins,
      readUint_toBits 1 _ _ _ (by norm_num [BITS_TO_ENCODE_N_BINS])]
    simp only []
    rw [if_neg (Nat.not_lt.mpr Nat.one_le_two_pow)]
    rw [if_pos ⟨trivial, hasl⟩]
  · intro UB mode asl k c w0 lower ob rest hw hl hob hgt
    rw [parseBinsLoop]
    rw [readUint_toBits _ _ _ _ hw]
    simp only []
    rw [readUint_toBits _ _ _ _ hl]
    simp only []
    rw [readUint_toBits _ _ _ _ hob]
    simp only []
    rw [if_pos hgt]
  · intro UB asl nb c delta rest hdelta hasl h1 h2
    simp only [ChunkMetadata.parse_from, List.append_assoc]
    rw [readUint_toBits 0 BITS_TO_ENCODE_MODE _ _ (Nat.two_pow_pos _)]
    try simp only []
    rw [if_pos trivial]
    try simp only []
    rw [readUint_toBits _ _ _ _ hdelta]
    try simp only []
    have hml : Mode.Classic.n_latents = 0 + 1 := rfl
    rw [hml, parseLatentsLoop, ChunkLatentMetadata.parse_from]
    rw [readUint_toBits _ _ _ _ hasl]
    try simp only []
    rw [parse_bins, readUint_toBits _ _ _ _ h1]
    try simp only []
    rw [if_pos h2]

/-- C3: an unknown mode tag (any value in `3 ..= 2^BITS_TO_ENCODE_MODE - 1`)
makes `ChunkMetadata::parse_from` fail with a compatibility error (never
silently mapped to `Classic`); the tag mapping used by `write_to` is
`Classic = 0`, `Gcd = 1`, `FloatMult = 2`; and any successful parse maps the
stream tag back by the same table. -/
theorem C3_mode_tag :
    (∀ (UB c v : Nat) (rest : List Bool),
      3 ≤ v → v < 2 ^ BITS_TO_ENCODE_MODE →
      ChunkMetadata.parse_from UB
          ⟨c, toBits v BITS_TO_ENCODE_MODE ++ rest⟩ ⟨true⟩ =
        .error (.compatibility "unknown mode value")) ∧
    (∀ (UB : Nat) (m : ChunkMetadata),
      (m.mode = Mode.Classic →
        ∃ t, m.writeToBody UB ⟨true⟩ = toBits 0 BITS_TO_ENCODE_MODE ++ t) ∧
      (m.mode = Mode.Gcd →
        ∃ t, m.writeToBody UB ⟨true⟩ = toBits 1 BITS_TO_ENCODE_MODE ++ t) ∧
      (∀ base, m.mode = Mode.FloatMult base →
        ∃ t, m.writeToBody UB ⟨true⟩ = toBits 2 BITS_TO_ENCODE_MODE ++ t)) ∧
    (∀ (UB c t : Nat) (rest : List Bool) (m : ChunkMetadata) (r2 : BitReader),
      ChunkMetadata.parse_from UB
          ⟨c, toBits t BITS_TO_ENCODE_MODE ++ rest⟩ ⟨true⟩ = .ok (m, r2) →
      t < 2 ^ BITS_TO_ENCODE_MODE →
      (t = 0 → m.mode = Mode.Classic) ∧
      (t = 1 → m.mode = Mode.Gcd) ∧
      (t = 2 → ∃ b, m.mode = Mode.FloatMult b)) := by
  refine ⟨?_, ?_, ?_⟩
  · intro UB c v rest h3 h16
    simp only [ChunkMetadata.parse_from]
    rw [readUint_toBits _ _ _ _ h16]
    try simp only []
    rw [if_neg (by omega), if_neg (by omega), if_neg (by omega)]
  · intro UB m
    refine ⟨?_, ?_, ?_⟩
    · intro hm
      exact ⟨toBits m.delta_encoding_order BITS_TO_ENCODE_DELTA_ENCODING_ORDER ++
        (m.latents.map (fun l => ChunkLatentMetadata.write_to UB l Mode.Classic)).flatten,
        by simp [ChunkMetadata.writeToBody, hm, List.append_assoc]⟩
    · intro hm
      exact ⟨toBits m.delta_encoding_order BITS_TO_ENCODE_DELTA_ENCODING_ORDER ++
        (m.latents.map (fun l => ChunkLatentMetadata.write_to UB l Mode.Gcd)).flatten,
        by simp [ChunkMetadata.writeToBody, hm, List.append_assoc]⟩
    · intro base hm
      exact ⟨toBits base UB ++
        (toBits m.delta_encoding_order BITS_TO_ENCODE_DELTA_ENCODING_ORDER ++
          (m.latents.map (fun l => ChunkLatentMetadata.write_to UB l (Mode.FloatMult base))).flatten),
        by simp [ChunkMetadata.writeToBody, hm, List.append_assoc]⟩
  · intro UB c t rest m r2 h hlt
    simp only [ChunkMetadata.parse_from] at h
    rw [readUint_toBits _ _ _ _ hlt] at h
    refine ⟨?_, ?_, ?_⟩
    · rintro rfl
      try simp only [] at h
      rw [if_pos trivial] at h
      try simp only [] at h
      split at h
      · cases h
      · split at h
        · cases h
        · split at h
          · cases h
          · cases h
            rfl
    · rintro rfl
      try simp only [] at h
      rw [if_pos trivial] at h
      try rw [if_neg (by decide : ¬((1:Nat) = 0))] at h
      try simp only [] at h
      split at h
      · cases h
      · split at h
        · cases h
        · split at h
          · cases h
          · cases h
            rfl
    · rintro rfl
      try simp only [] at h
      rw [if_neg (by decide : ¬((2:Nat) = 0)), if_neg (by decide : ¬((2:Nat) = 1)),
        if_pos trivial] at h
      try simp only [] at h
      split at h
      · cases h
      · rename_i mode1 r1 heq1
        split at heq1
        · cases heq1
        · cases heq1
          split at h
          · cases h
          · split at h
            · cases h
            · split at h
              · cases h
              · cases h
                exact ⟨_, rfl⟩

/-- A minimal valid chunk: `n = 0`, Classic, one single-bin table. -/
def minimalChunk : ChunkMetadata :=
  ⟨0, 0, Mode.Classic, 0, [⟨0, [⟨1, 0, 0, 1⟩]⟩]⟩

set_option maxRecDepth 100000 in
theorem C2_witness :
    (parse_bins 8 Mode.Classic 0 ⟨0, toBits 2 BITS_TO_ENCODE_N_BINS ++ []⟩ =
      .error (.corruption "ANS size log is too small for number of bins")) ∧
    (parse_bins 8 Mode.Classic 1 ⟨0, toBits 1 BITS_TO_ENCODE_N_BINS ++ []⟩ =
      .error (.corruption "Only 1 bin but ANS size log should be 0")) ∧
    (parseBinsLoop 8 Mode.Classic 0 1
        ⟨0, toBits 0 0 ++ (toBits 0 8 ++ (toBits 9 (bits_to_encode_offset_bits 8) ++ []))⟩ =
      .error (.corruption "offset bits exceeds data type bits")) ∧
    (ChunkMetadata.parse_from 8
        ⟨0, toBits 0 BITS_TO_ENCODE_MODE ++
          (toBits 0 BITS_TO_ENCODE_DELTA_ENCODING_ORDER ++
            (toBits 0 BITS_TO_ENCODE_ANS_SIZE_LOG ++
              (toBits 2 BITS_TO_ENCODE_N_BINS ++ [])))⟩ ⟨true⟩ =
      .error (.corruption "ANS size log is too small for number of bins")) :=
  ⟨C2_bin_validation.1 8 Mode.Classic 0 2 0 [] (by decide) (by decide),
   C2_bin_validation.2.1 8 Mode.Classic 1 0 [] (by decide),
   C2_bin_validation.2.2.1 8 Mode.Classic 0 0 0 0 0 9 [] (by decide) (by decide)
     (by decide) (by decide),
   C2_bin_validation.2.2.2 8 0 2 0 0 [] (by decide) (by decide) (by decide) (by decide)⟩

set_option maxRecDepth 100000 in
theorem C3_witness :
    (ChunkMetadata.parse_from 8 ⟨0, toBits 3 BITS_TO_ENCODE_MODE ++ []⟩ ⟨true⟩ =
      .error (.compatibility "unknown mode value")) ∧
    (∃ t, ChunkMetadata.writeToBody 8 minimalChunk ⟨true⟩ =
      toBits 0 BITS_TO_ENCODE_MODE ++ t) ∧
    (∃ t, ChunkMetadata.writeToBody 8 ⟨0, 0, Mode.Gcd, 0, [⟨0, [⟨1, 0, 0, 1⟩]⟩]⟩ ⟨true⟩ =
      toBits 1 BITS_TO_ENCODE_MODE ++ t) ∧
    (∃ t, ChunkMetadata.writeToBody 8
        ⟨0, 0, Mode.FloatMult 3, 0, [⟨0, [⟨1, 0, 0, 1⟩]⟩, ⟨0, [⟨1, 0, 0, 1⟩]⟩]⟩ ⟨true⟩ =
      toBits 2 BITS_TO_ENCODE_MODE ++ t) ∧
    ((⟨0, 0, Mode.Classic, 0, [⟨0, [⟨1, 0, 0, 1⟩]⟩]⟩ : ChunkMetadata).mode = Mode.Classic) :=
  ⟨C3_mode_tag.1 8 0 3 [] (by decide) (by decide),
   (C3_mode_tag.2.1 8 minimalChunk).1 rfl,
   (C3_mode_tag.2.1 8 ⟨0, 0, Mode.Gcd, 0, [⟨0, [⟨1, 0, 0, 1⟩]⟩]⟩).2.1 rfl,
   (C3_mode_tag.2.1 8 ⟨0, 0, Mode.FloatMult 3, 0,
     [⟨0, [⟨1, 0, 0, 1⟩]⟩, ⟨0, [⟨1, 0, 0, 1⟩]⟩]⟩).2.2 3 rfl,
   (C3_mode_tag.2.2 8 0 0
     ((ChunkMetadata.write_to 8 minimalChunk ⟨true⟩ []).drop BITS_TO_ENCODE_MODE)
     ⟨0, 0, Mode.Classic, 0, [⟨0, [⟨1, 0, 0, 1⟩]⟩]⟩ ⟨40, []⟩
     (by decide) (by decide)).1 rfl⟩

/-- C4: every successful `ChunkMetadata::parse_from` returns exactly
`n_latents` latents for its mode (1 for Classic and Gcd, 2 for FloatMult),
and `write_to` emits exactly one latent record per element of `latents` —
hence exactly the mode's required number for a well-formed record —
regardless of the bucket tables' contents. -/
theorem C4_latent_count :
    (∀ (UB : Nat) (r : BitReader) (flags : Flags) (m : ChunkMetadata)
      (r2 : BitReader),
      ChunkMetadata.parse_from UB r flags = .ok (m, r2) →
      m.latents.length = m.mode.n_latents) ∧
    (Mode.Classic.n_latents = 1 ∧ Mode.Gcd.n_latents = 1 ∧
      ∀ base, (Mode.FloatMult base).n_latents = 2) ∧
    (∀ (UB : Nat) (flags : Flags) (m : ChunkMetadata) (w : List Bool),
      m.latents.length = m.mode.n_latents →
      (m.latents.map (fun l => l.write_to UB m.mode)).length = m.mode.n_latents ∧
      ∃ pre, ChunkMetadata.write_to UB m flags w =
        finishByte (w ++ (pre ++
          (m.latents.map (fun l => l.write_to UB m.mode)).flatten))) := by
  refine ⟨?_, ⟨rfl, rfl, fun _ => rfl⟩, ?_⟩
  · intro UB r flags m r2 h
    exact parse_from_ok_latents UB r flags m r2 h
  · intro UB flags m w hlen
    refine ⟨by simp [hlen], ?_⟩
    refine ⟨(match flags.use_wrapped_mode with
             | true => []
             | false =>
               toBits m.n BITS_TO_ENCODE_N_ENTRIES ++
               toBits m.compressed_body_size BITS_TO_ENCODE_COMPRESSED_BODY_SIZE) ++
      toBits (match m.mode with
              | .Classic => 0
              | .Gcd => 1
              | .FloatMult _ => 2) BITS_TO_ENCODE_MODE ++
      (match m.mode with
       | .FloatMult base => toBits base UB
       | _ => []) ++
      toBits m.delta_encoding_order BITS_TO_ENCODE_DELTA_ENCODING_ORDER, ?_⟩
    rw [ChunkMetadata.write_to, ChunkMetadata.writeToBody]

set_option maxRecDepth 100000 in
theorem C4_witness :
    ((⟨0, 0, Mode.Classic, 0, [⟨0, [⟨1, 0, 0, 1⟩]⟩]⟩ : ChunkMetadata).latents.length =
      (⟨0, 0, Mode.Classic, 0, [⟨0, [⟨1, 0, 0, 1⟩]⟩]⟩ : ChunkMetadata).mode.n_latents) ∧
    ((minimalChunk.latents.map
      (fun l => l.write_to 8 minimalChunk.mode)).length = minimalChunk.mode.n_latents) :=
  ⟨(C4_latent_count.1 8 ⟨0, ChunkMetadata.write_to 8 minimalChunk ⟨true⟩ []⟩ ⟨true⟩
      ⟨0, 0, Mode.Classic, 0, [⟨0, [⟨1, 0, 0, 1⟩]⟩]⟩ ⟨40, []⟩ (by decide)),
   (C4_latent_count.2.2 8 ⟨true⟩ minimalChunk [] (by decide)).1⟩

/-- C5: the per-bucket `gcd` stream field exists exactly when the mode is
`Gcd` and the bucket's `offset_bits` is positive (`writesGcd`); under
`Classic` and `FloatMult` no `gcd` field is written regardless of
`offset_bits`; and on parse the `gcd` of a bucket carrying no stream field
is set to 1, while a carried field is read back verbatim. -/
theorem C5_gcd_field :
    (∀ (mode : Mode) (b : Bin),
      writesGcd mode b = true ↔ (mode = Mode.Gcd ∧ 0 < b.offset_bits)) ∧
    (∀ (UB : Nat) (mode : Mode) (asl : Nat) (b : Bin),
      binEnc UB mode asl b =
        toBits (b.weight - 1) asl ++ toBits b.lower UB ++
        toBits b.offset_bits (bits_to_encode_offset_bits UB) ++
        (if writesGcd mode b then toBits b.gcd UB else [])) ∧
    (∀ (UB : Nat) (mode : Mode) (asl : Nat) (b : Bin) (c : Nat) (rest : List Bool),
      1 ≤ b.weight → b.weight ≤ 2 ^ asl → b.lower < 2 ^ UB →
      b.offset_bits ≤ UB → (writesGcd mode b = true → b.gcd < 2 ^ UB) →
      parseBinsLoop UB mode asl 1 ⟨c, binEnc UB mode asl b ++ rest⟩ =
        .ok ([{ weight := b.weight, lower := b.lower,
                offset_bits := b.offset_bits,
                gcd := if writesGcd mode b then b.gcd else 1 }],
          ⟨c + (binEnc UB mode asl b).length, rest⟩)) := by
  refine ⟨?_, ?_, ?_⟩
  · intro mode b
    cases mode <;> simp [writesGcd]
  · intro UB mode asl b
    cases mode with
    | Classic => simp [binEnc, writesGcd]
    | Gcd =>
      by_cases h : 0 < b.offset_bits <;>
        simp [binEnc, writesGcd, h, List.append_assoc]
    | FloatMult base => simp [binEnc, writesGcd]
  · intro UB mode asl b c rest h1 h2 h3 h4 h5
    rw [parseBinsLoop_cons UB mode asl 0 c b rest h1 h2 h3 h4 h5]
    rw [parseBinsLoop]

set_option maxRecDepth 100000 in
theorem C5_witness :
    (writesGcd Mode.Gcd ⟨1, 0, 3, 7⟩ = true ∧ writesGcd Mode.Classic ⟨1, 0, 3, 7⟩ = false) ∧
    (parseBinsLoop 8 Mode.Gcd 0 1 ⟨0, binEnc 8 Mode.Gcd 0 ⟨1, 0, 3, 7⟩ ++ []⟩ =
      .ok ([⟨1, 0, 3, 7⟩], ⟨0 + (binEnc 8 Mode.Gcd 0 ⟨1, 0, 3, 7⟩).length, []⟩)) ∧
    (parseBinsLoop 8 Mode.Classic 0 1 ⟨0, binEnc 8 Mode.Classic 0 ⟨1, 0, 3, 7⟩ ++ []⟩ =
      .ok ([⟨1, 0, 3, 1⟩], ⟨0 + (binEnc 8 Mode.Classic 0 ⟨1, 0, 3, 7⟩).length, []⟩)) :=
  ⟨⟨by decide, by decide⟩,
   by
    have h := C5_gcd_field.2.2 8 Mode.Gcd 0 ⟨1, 0, 3, 7⟩ 0 []
      (by decide) (by decide) (by decide) (by decide) (by decide)
    exact h.trans (by decide),
   by
    have h := C5_gcd_field.2.2 8 Mode.Classic 0 ⟨1, 0, 3, 7⟩ 0 []
      (by decide) (by decide) (by decide) (by decide) (by decide)
    exact h.trans (by decide)⟩

/-- The standalone stream `write_to` emits, decomposed into the `n` field,
the `compressed_body_size` field, and a tail (the wrapped-mode body plus the
byte padding) that does not depend on `compressed_body_size`. -/
theorem write_to_standalone_decomp (UB : Nat) (m : ChunkMetadata) :
    ChunkMetadata.write_to UB m ⟨false⟩ [] =
      toBits m.n BITS_TO_ENCODE_N_ENTRIES ++
        (toBits m.compressed_body_size BITS_TO_ENCODE_COMPRESSED_BODY_SIZE ++
          (ChunkMetadata.writeToBody UB m ⟨true⟩ ++
            List.replicate
              ((8 - (ChunkMetadata.writeToBody UB m ⟨false⟩).length % 8) % 8)
              false)) := by
  have hbody : ChunkMetadata.writeToBody UB m ⟨false⟩ =
      toBits m.n BITS_TO_ENCODE_N_ENTRIES ++
        (toBits m.compressed_body_size BITS_TO_ENCODE_COMPRESSED_BODY_SIZE ++
          ChunkMetadata.writeToBody UB m ⟨true⟩) := by
    simp [ChunkMetadata.writeToBody, List.append_assoc]
  rw [ChunkMetadata.write_to, List.nil_append, finishByte, hbody]
  simp [List.append_assoc]

/-- C7 (amended): in standalone mode `write_to` writes `n` followed by the
record's *current* `compressed_body_size` field value (not an
unconditional zero); records built by `ChunkMetadata::new` carry 0 there,
so a freshly-constructed chunk writes a zero-valued placeholder. -/
theorem C7_body_size_field :
    (∀ (n : Nat) (mode : Mode) (d : Nat) (lat : List ChunkLatentMetadata),
      (ChunkMetadata.new n mode d lat).compressed_body_size = 0) ∧
    (∀ (UB : Nat) (m : ChunkMetadata),
      ∃ tail, ChunkMetadata.write_to UB m ⟨false⟩ [] =
        toBits m.n BITS_TO_ENCODE_N_ENTRIES ++
          (toBits m.compressed_body_size BITS_TO_ENCODE_COMPRESSED_BODY_SIZE ++ tail)) ∧
    (∀ (UB n : Nat) (mode : Mode) (d : Nat) (lat : List ChunkLatentMetadata),
      ofBits (((ChunkMetadata.write_to UB (ChunkMetadata.new n mode d lat) ⟨false⟩ []).drop
        BITS_TO_ENCODE_N_ENTRIES).take BITS_TO_ENCODE_COMPRESSED_BODY_SIZE) = 0) := by
  refine ⟨fun _ _ _ _ => rfl, ?_, ?_⟩
  · intro UB m
    exact ⟨_, write_to_standalone_decomp UB m⟩
  · intro UB n mode d lat
    rw [write_to_standalone_decomp]
    rw [drop_append_len _ _ _ (length_toBits _ _)]
    rw [take_append_len _ _ _ (length_toBits _ _)]
    rw [ofBits_toBits]
    rfl

set_option maxRecDepth 100000 in
/-- C7 counterexample: for a record whose `compressed_body_size` field holds
5, the compressed-body-size field emitted by `write_to` in standalone mode
is 5, not zero. -/
theorem C7_counterexample :
    ofBits (((ChunkMetadata.write_to 8
        ⟨0, 5, Mode.Classic, 0, [⟨0, [⟨1, 0, 0, 1⟩]⟩]⟩ ⟨false⟩ []).drop
      BITS_TO_ENCODE_N_ENTRIES).take BITS_TO_ENCODE_COMPRESSED_BODY_SIZE) = 5 ∧
    (5 : Nat) ≠ 0 :=
  ⟨by decide, by decide⟩

set_option maxRecDepth 100000 in
/-- C6 counterexample: writing the chunk metadata itself starting at bit
offset `bit_idx = 0`, appending one body byte, and backpatching with
`compressed_body_size = 1` does *not* yield a stream whose parsed
`compressed_body_size` is 1: the overwrite lands at absolute bit
`bit_idx + 24 + 8 = 32`, which is 8 bits past the start of the
`compressed_body_size` field, so the stream parses to body size 256. -/
theorem C6_patch_offset_counterexample :
    ChunkMetadata.parse_from 8
        ⟨0, ChunkMetadata.update_write_compressed_body_size
          { minimalChunk with compressed_body_size := 1 }
          (ChunkMetadata.write_to 8 minimalChunk ⟨false⟩ [] ++ List.replicate 8 false) 0⟩
        ⟨false⟩ =
      .ok ({ minimalChunk with compressed_body_size := 256 },
        ⟨96, List.replicate 8 false⟩) ∧
    (256 : Nat) ≠ 1 :=
  ⟨by decide, by decide⟩

/-- C6 (amended): `bit_idx` names the byte-aligned bit offset of the chunk's
leading byte, one byte *before* the metadata itself (the source adds
`BITS_TO_ENCODE_N_ENTRIES + 8` to it).  Backpatching a standalone stream
laid out as `pre ++ gap ++ write_to(m) ++ body` (with `|pre| = bit_idx`,
`|gap| = 8`) with `compressed_body_size = N` overwrites exactly the
`compressed_body_size` field — the stream becomes the one that would have
been written with that field equal to `N` — and re-parsing from
`bit_idx + 8` returns metadata whose `compressed_body_size` is `N`, for
every `N` up to the field's maximum. -/
theorem C6_backpatch (UB : Nat) (m : ChunkMetadata) (pre gap body : List Bool)
    (N : Nat)
    (hpre : pre.length % 8 = 0) (hgap : gap.length = 8)
    (hv : validMeta UB m)
    (hn : m.n < 2 ^ BITS_TO_ENCODE_N_ENTRIES)
    (hN : N < 2 ^ BITS_TO_ENCODE_COMPRESSED_BODY_SIZE) :
    ChunkMetadata.update_write_compressed_body_size
        { m with compressed_body_size := N }
        (pre ++ (gap ++ (ChunkMetadata.write_to UB m ⟨false⟩ [] ++ body)))
        pre.length =
      pre ++ (gap ++
        (ChunkMetadata.write_to UB { m with compressed_body_size := N } ⟨false⟩ [] ++ body)) ∧
    ChunkMetadata.parse_from UB
        ⟨pre.length + 8,
          ChunkMetadata.write_to UB { m with compressed_body_size := N } ⟨false⟩ [] ++ body⟩
        ⟨false⟩ =
      .ok ({ m with compressed_body_size := N },
        ⟨pre.length + 8 +
          (ChunkMetadata.write_to UB { m with compressed_body_size := N } ⟨false⟩ []).length,
          body⟩) := by
  obtain ⟨n, cbs, mode, delta, lat⟩ := m
  constructor
  · have hd1 := write_to_standalone_decomp UB ⟨n, cbs, mode, delta, lat⟩
    have hd2 := write_to_standalone_decomp UB ⟨n, N, mode, delta, lat⟩
    simp only [] at hd1 hd2
    have hlen12 : (ChunkMetadata.writeToBody UB ⟨n, N, mode, delta, lat⟩ ⟨false⟩).length =
        (ChunkMetadata.writeToBody UB ⟨n, cbs, mode, delta, lat⟩ ⟨false⟩).length := by
      simp [ChunkMetadata.writeToBody, List.length_append, length_toBits]
    have hw2 : ChunkMetadata.writeToBody UB ⟨n, N, mode, delta, lat⟩ ⟨true⟩ =
        ChunkMetadata.writeToBody UB ⟨n, cbs, mode, delta, lat⟩ ⟨true⟩ := by
      simp [ChunkMetadata.writeToBody]
    rw [hlen12, hw2] at hd2
    rw [ChunkMetadata.update_write_compressed_body_size, overwriteUint, hd1, hd2]
    have hrearr : pre ++ (gap ++ ((toBits n BITS_TO_ENCODE_N_ENTRIES ++
        (toBits cbs BITS_TO_ENCODE_COMPRESSED_BODY_SIZE ++
          (ChunkMetadata.writeToBody UB ⟨n, cbs, mode, delta, lat⟩ ⟨true⟩ ++
            List.replicate
              ((8 - (ChunkMetadata.writeToBody UB ⟨n, cbs, mode, delta, lat⟩ ⟨false⟩).length % 8) % 8)
              false))) ++ body)) =
        ((pre ++ (gap ++ toBits n BITS_TO_ENCODE_N_ENTRIES)) ++
          toBits cbs BITS_TO_ENCODE_COMPRESSED_BODY_SIZE) ++
          ((ChunkMetadata.writeToBody UB ⟨n, cbs, mode, delta, lat⟩ ⟨true⟩ ++
            List.replicate
              ((8 - (ChunkMetadata.writeToBody UB ⟨n, cbs, mode, delta, lat⟩ ⟨false⟩).length % 8) % 8)
              false) ++ body) := by
      simp [List.append_assoc]
    rw [hrearr]
    have htk : (((pre ++ (gap ++ toBits n BITS_TO_ENCODE_N_ENTRIES)) ++
        toBits cbs BITS_TO_ENCODE_COMPRESSED_BODY_SIZE) ++
        ((ChunkMetadata.writeToBody UB ⟨n, cbs, mode, delta, lat⟩ ⟨true⟩ ++
          List.replicate
            ((8 - (ChunkMetadata.writeToBody UB ⟨n, cbs, mode, delta, lat⟩ ⟨false⟩).length % 8) % 8)
            false) ++ body)).take (pre.length + BITS_TO_ENCODE_N_ENTRIES + 8) =
        pre ++ (gap ++ toBits n BITS_TO_ENCODE_N_ENTRIES) := by
      rw [List.append_assoc]
      exact take_append_len _ _ _ (by simp [hgap, length_toBits]; omega)
    have hdr : (((pre ++ (gap ++ toBits n BITS_TO_ENCODE_N_ENTRIES)) ++
        toBits cbs BITS_TO_ENCODE_COMPRESSED_BODY_SIZE) ++
        ((ChunkMetadata.writeToBody UB ⟨n, cbs, mode, delta, lat⟩ ⟨true⟩ ++
          List.replicate
            ((8 - (ChunkMetadata.writeToBody UB ⟨n, cbs, mode, delta, lat⟩ ⟨false⟩).length % 8) % 8)
            false) ++ body)).drop
          (pre.length + BITS_TO_ENCODE_N_ENTRIES + 8 + BITS_TO_ENCODE_COMPRESSED_BODY_SIZE) =
        (ChunkMetadata.writeToBody UB ⟨n, cbs, mode, delta, lat⟩ ⟨true⟩ ++
          List.replicate
            ((8 - (ChunkMetadata.writeToBody UB ⟨n, cbs, mode, delta, lat⟩ ⟨false⟩).length % 8) % 8)
            false) ++ body := by
      exact drop_append_len _ _ _ (by simp [hgap, length_toBits]; omega)
    rw [htk, hdr]
    simp [List.append_assoc]
  · have h := chunk_parse_from_write_to UB ⟨n, N, mode, delta, lat⟩ ⟨false⟩
      (pre.length + 8) body (by omega)
      (by
        obtain ⟨h1, h2, h3, h4⟩ := hv
        exact ⟨h1, h2, h3, h4⟩)
      (fun _ => hn) (fun _ => hN)
    simpa [expectedParse] using h

set_option maxRecDepth 1000000 in
theorem C6_witness :
    ChunkMetadata.update_write_compressed_body_size
        { minimalChunk with compressed_body_size := 1 }
        (List.replicate 8 false ++
          (ChunkMetadata.write_to 8 minimalChunk ⟨false⟩ [] ++ List.replicate 8 false)) 0 =
      List.replicate 8 false ++
        (ChunkMetadata.write_to 8 { minimalChunk with compressed_body_size := 1 } ⟨false⟩ [] ++
          List.replicate 8 false) ∧
    ChunkMetadata.parse_from 8
        ⟨8, ChunkMetadata.write_to 8 { minimalChunk with compressed_body_size := 1 } ⟨false⟩ [] ++
          List.replicate 8 false⟩ ⟨false⟩ =
      .ok ({ minimalChunk with compressed_body_size := 1 },
        ⟨104, List.replicate 8 false⟩) := by
  have h := C6_backpatch 8 minimalChunk [] (List.replicate 8 false)
    (List.replicate 8 false) 1 (by decide) (by decide) (by decide) (by decide) (by decide)
  constructor
  · have h1 := h.1
    simpa using h1
  · have h2 : ChunkMetadata.parse_from 8
        ⟨8, ChunkMetadata.write_to 8 { minimalChunk with compressed_body_size := 1 } ⟨false⟩ [] ++
          List.replicate 8 false⟩ ⟨false⟩ =
      .ok ({ minimalChunk with compressed_body_size := 1 },
        ⟨8 + (ChunkMetadata.write_to 8 { minimalChunk with compressed_body_size := 1 } ⟨false⟩ []).length,
          List.replicate 8 false⟩) := by simpa using h.2
    exact h2.trans (by decide)

/-- C8: both chunk and page metadata writes end with byte padding (the
written length is always a whole number of bytes), and on parse a non-zero
bit in that padding region is rejected as a corruption error — after all
latents are parsed for the chunk, after all per-latent page metadata is
parsed for the page. -/
theorem C8_padding :
    (∀ (UB : Nat) (m : ChunkMetadata) (flags : Flags) (w : List Bool),
      (ChunkMetadata.write_to UB m flags w).length % 8 = 0) ∧
    (∀ (UB : Nat) (m : ChunkMetadata) (flags : Flags) (c : Nat) (p s2 : List Bool),
      c % 8 = 0 → validMeta UB m →
      (flags.use_wrapped_mode = false → m.n < 2 ^ BITS_TO_ENCODE_N_ENTRIES) →
      (flags.use_wrapped_mode = false →
        m.compressed_body_size < 2 ^ BITS_TO_ENCODE_COMPRESSED_BODY_SIZE) →
      p.length = (8 - (m.writeToBody UB flags).length % 8) % 8 →
      p.any id = true →
      ChunkMetadata.parse_from UB ⟨c, m.writeToBody UB flags ++ (p ++ s2)⟩ flags =
        .error (.corruption "nonzero bits in end of final byte of chunk metadata")) ∧
    (∀ (UB : Nat) (pm : PageMetadata) (asls : List Nat) (w : List Bool),
      (PageMetadata.write_to UB pm asls w).length % 8 = 0) ∧
    (∀ (UB : Nat) (cm : ChunkMetadata) (pm : PageMetadata) (c : Nat) (p s2 : List Bool),
      c % 8 = 0 → pageLatentsValid UB cm 0 cm.latents pm.latents →
      p.length = (8 - (((pm.latents.zip (cm.latents.map (fun lm => lm.ans_size_log))).map
        (fun q => q.1.write_to UB q.2)).flatten).length % 8) % 8 →
      p.any id = true →
      PageMetadata.parse_from UB
          ⟨c, ((pm.latents.zip (cm.latents.map (fun lm => lm.ans_size_log))).map
            (fun q => q.1.write_to UB q.2)).flatten ++ (p ++ s2)⟩ cm =
        .error (.corruption "non-zero bits at end of data page metadata")) := by
  refine ⟨?_, ?_, ?_, ?_⟩
  · intro UB m flags w
    exact length_finishByte_mod _
  · intro UB m flags c p s2 hc hv hn hcbs hp hnz
    rw [parse_from_writeToBody UB m flags c _ hv hn hcbs]
    rw [drainEmptyByte_corrupt _ _ _ _ (by omega) hnz]
  · intro UB pm asls w
    exact length_finishByte_mod _
  · intro UB cm pm c p s2 hc hv hp hnz
    rw [page_parse_from_write_body UB cm pm c _ hv]
    rw [drainEmptyByte_corrupt _ _ _ _ (by omega) hnz]

set_option maxRecDepth 100000 in
theorem C8_witness :
    ((ChunkMetadata.write_to 8 minimalChunk ⟨true⟩ []).length % 8 = 0) ∧
    (ChunkMetadata.parse_from 8
        ⟨0, ChunkMetadata.writeToBody 8 minimalChunk ⟨true⟩ ++ ([true, false] ++ [])⟩ ⟨true⟩ =
      .error (.corruption "nonzero bits in end of final byte of chunk metadata")) ∧
    ((PageMetadata.write_to 8 ⟨[⟨⟨[5]⟩, [1, 0, 1, 0]⟩]⟩ [1] []).length % 8 = 0) ∧
    (PageMetadata.parse_from 8
        ⟨0, ((([⟨⟨[5]⟩, [1, 0, 1, 0]⟩] : List PageLatentMetadata).zip
          (([⟨1, [⟨1, 0, 0, 1⟩]⟩] : List ChunkLatentMetadata).map (fun lm => lm.ans_size_log))).map
            (fun q => q.1.write_to 8 q.2)).flatten ++
          ([true, false, false, false] ++ [])⟩
        ⟨0, 0, Mode.Classic, 1, [⟨1, [⟨1, 0, 0, 1⟩]⟩]⟩ =
      .error (.corruption "non-zero bits at end of data page metadata")) :=
  ⟨C8_padding.1 8 minimalChunk ⟨true⟩ [],
   C8_padding.2.1 8 minimalChunk ⟨true⟩ 0 [true, false] [] (by decide) (by decide)
     (by decide) (by decide) (by decide) (by decide),
   C8_padding.2.2.1 8 ⟨[⟨⟨[5]⟩, [1, 0, 1, 0]⟩]⟩ [1] [],
   C8_padding.2.2.2 8 ⟨0, 0, Mode.Classic, 1, [⟨1, [⟨1, 0, 0, 1⟩]⟩]⟩
     ⟨[⟨⟨[5]⟩, [1, 0, 1, 0]⟩]⟩ 0 [true, false, false, false] []
     (by decide) ⟨by decide, trivial⟩ (by decide) (by decide)⟩

/-- C9: the dispatch of `nontrivial_gcd_and_n_latents`, for any triviality
and GCD-profitability queries `bt`/`ug`: in `Classic`/`Gcd` mode a trivial
primary table reports `(false, 0)` and a nontrivial one reports
`(ug primary, 1)`; in `FloatMult` mode the GCD flag is always `false` and
the latent count 0, 1 or 2 comes from inspecting both latents' triviality
independently. -/
theorem C9_nontrivial_dispatch :
    ∀ (bt ug : List Bin → Bool) (m : ChunkMetadata),
      ((m.mode = Mode.Classic ∨ m.mode = Mode.Gcd) →
        ChunkMetadata.nontrivial_gcd_and_n_latents bt ug m =
          (if bt (m.latents.getD 0 ⟨0, []⟩).bins then (false, 0)
           else (ug (m.latents.getD 0 ⟨0, []⟩).bins, 1))) ∧
      (∀ base, m.mode = Mode.FloatMult base →
        ChunkMetadata.nontrivial_gcd_and_n_latents bt ug m =
          (false,
            if bt (m.latents.getD 1 ⟨0, []⟩).bins then
              (if bt (m.latents.getD 0 ⟨0, []⟩).bins then 0 else 1)
            else 2)) := by
  intro bt ug m
  constructor
  · rintro (hm | hm) <;>
      simp [ChunkMetadata.nontrivial_gcd_and_n_latents, hm]
  · intro base hm
    simp [ChunkMetadata.nontrivial_gcd_and_n_latents, hm]

theorem C9_witness :
    (ChunkMetadata.nontrivial_gcd_and_n_latents (fun _ => false) (fun _ => true)
      minimalChunk = (true, 1)) ∧
    (ChunkMetadata.nontrivial_gcd_and_n_latents (fun _ => false) (fun _ => true)
      ⟨0, 0, Mode.FloatMult 3, 0, [⟨0, [⟨1, 0, 0, 1⟩]⟩, ⟨0, [⟨1, 0, 0, 1⟩]⟩]⟩ = (false, 2)) :=
  ⟨((C9_nontrivial_dispatch (fun _ => false) (fun _ => true) minimalChunk).1
      (Or.inl rfl)).trans (by decide),
   ((C9_nontrivial_dispatch (fun _ => false) (fun _ => true)
      ⟨0, 0, Mode.FloatMult 3, 0, [⟨0, [⟨1, 0, 0, 1⟩]⟩, ⟨0, [⟨1, 0, 0, 1⟩]⟩]⟩).2 3 rfl).trans
     (by decide)⟩

/-- C10: every bucket table successfully returned by `parse_bins` contains
only bins of weight at least 1 (the stream stores `weight - 1` and parse
adds 1 back, even when `ans_size_log = 0`), so the `weight - 1` that
`write_bins` computes recovers the weight exactly — it never underflows on
a parsed table. -/
theorem C10_parsed_weights_positive :
    ∀ (UB : Nat) (mode : Mode) (asl : Nat) (r : BitReader)
      (bins : List Bin) (r2 : BitReader),
      parse_bins UB mode asl r = .ok (bins, r2) →
      ∀ b ∈ bins, 1 ≤ b.weight ∧ b.weight - 1 + 1 = b.weight := by
  intro UB mode asl r bins r2 h b hb
  rw [parse_bins] at h
  split at h
  · cases h
  · split at h
    · cases h
    · split at h
      · cases h
      · have h1 := parseBinsLoop_weight_pos UB mode asl _ _ _ _ h b hb
        exact ⟨h1, by omega⟩

set_option maxRecDepth 100000 in
theorem C10_witness :
    1 ≤ (⟨1, 0, 0, 1⟩ : Bin).weight ∧
    (⟨1, 0, 0, 1⟩ : Bin).weight - 1 + 1 = (⟨1, 0, 0, 1⟩ : Bin).weight :=
  C10_parsed_weights_positive 8 Mode.Classic 0
    ⟨0, toBits 1 BITS_TO_ENCODE_N_BINS ++ (toBits 0 8 ++ toBits 0 (bits_to_encode_offset_bits 8))⟩
    [⟨1, 0, 0, 1⟩] ⟨0 + BITS_TO_ENCODE_N_BINS + 8 + bits_to_encode_offset_bits 8, []⟩
    (by decide) ⟨1, 0, 0, 1⟩ (by decide)

end Pco
